import Mathlib

/-!
# Verification of the adaptive cost-grid pathfinding engine

Shallow embedding of the core engine in `src/worker.js`: cost-grid construction,
multi-source proximity BFS, the priority-queue shortest-path search with dynamic
edge costs, the reinforcement feedback step, and the driver loop's event traffic.

Modelling conventions:
* JavaScript numbers are modelled as exact rationals (`ℚ`); pixel indices and
  counters as naturals.  The constant `Math.SQRT2` is modelled by the exact value
  of that IEEE-754 double, which is a rational number.
* `Infinity`-initialised numeric grids (`distances`, `cityInfluenceGrid`) are
  modelled as `ℕ → Option ℚ` with `none` standing for `Infinity`.
* `postMessage` calls are modelled by a trace of the message tags (strings),
  appended in program order.
* Unbounded `while` loops are modelled with an explicit fuel parameter; lemmas
  below show the canonical fuel always suffices.
-/

set_option autoImplicit false

namespace Greyscale

/-- Exact value of the IEEE-754 double constant `Math.SQRT2` used by the source
(`1.4142135623730951` = 6369051672525773 / 2^52).  The program computes with
doubles, so its `Math.SQRT2` is this rational number. -/
def SQRT2 : ℚ := 6369051672525773 / 4503599627370496

theorem SQRT2_pos : 0 < SQRT2 := by norm_num [SQRT2]

theorem one_lt_SQRT2 : 1 < SQRT2 := by norm_num [SQRT2]

/-- JavaScript `Math.round`: round half towards positive infinity. -/
def jsRound (q : ℚ) : ℤ := ⌊q + 1 / 2⌋

/-! ## Cost Grid Builder: pixel classification (src/worker.js:139-158) -/

/-- `waterThreshold` from `createCostGrid` (src/worker.js:139). -/
def waterThreshold : ℤ := 10

/-- The greyscale test from `createCostGrid` (src/worker.js:148):
`Math.abs(r - g) < waterThreshold && Math.abs(g - b) < waterThreshold`. -/
def isGrey (r g b : ℕ) : Bool :=
  |(r : ℤ) - g| < waterThreshold && |(g : ℤ) - b| < waterThreshold

/-- The elevation value stored for one raster pixel (src/worker.js:150-156):
grey (land) pixels store the red channel value, other (water) pixels store the
sentinel `-1`. -/
def elevationOfPixel (r g b : ℕ) : ℚ :=
  if isGrey r g b then (r : ℚ) else -1

/-- Formalisation of claim C7's wording: the three colour channels are mutually
within the fixed tolerance of 10 units of one another (all three pairs close).
This follows the claim's words and is to be compared with `isGrey`, which the
source actually computes. -/
def MutuallyWithinTolerance (r g b : ℕ) : Prop :=
  |(r : ℤ) - g| < 10 ∧ |(g : ℤ) - b| < 10 ∧ |(r : ℤ) - b| < 10

instance (r g b : ℕ) : Decidable (MutuallyWithinTolerance r g b) := by
  unfold MutuallyWithinTolerance; infer_instance

/-! ## Edge cost of the shortest-path search (src/worker.js:540-591) -/

/-- Edge cost of moving from pixel `u` into neighbour `v`, from `findPath`
(src/worker.js:540-591).  Step 1: base terrain cost (flat 15 for water, else
uphill factor 5 / downhill factor 0.5 on the elevation difference, floored at
0.1).  Step 2: road-usage discount `(1 - min(usage, 12) * 0.025)` when usage is
positive.  Step 3: city-influence discount 40% when the precomputed city
distance is < 50.  Step 4: diagonal multiplier `Math.SQRT2`. -/
def moveCost (elevU elevV : ℚ) (usageV : ℕ) (influenceV : Option ℚ)
    (isDiag : Bool) : ℚ :=
  let step1 : ℚ :=
    if elevV = -1 then 15
    else
      let elevationDiff := elevV - elevU
      let c := if 0 < elevationDiff then 1 + 5 * elevationDiff
               else 1 + (1 / 2) * elevationDiff
      max (1 / 10) c
  let step2 : ℚ :=
    if 0 < usageV then step1 * (1 - (min usageV 12 : ℕ) * (1 / 40)) else step1
  let step3 : ℚ :=
    match influenceV with
    | some d => if d < 50 then step2 * (1 - 40 / 100) else step2
    | none => step2
  if isDiag then step3 * SQRT2 else step3

/-- The step-1 base terrain cost is strictly positive. -/
theorem moveCost_step1_pos (elevU elevV : ℚ) :
    0 < (if elevV = -1 then (15 : ℚ)
         else max (1 / 10) (if 0 < elevV - elevU then 1 + 5 * (elevV - elevU)
                            else 1 + (1 / 2) * (elevV - elevU))) := by
  split
  · norm_num
  · exact lt_max_of_lt_left (by norm_num)

/-- The usage factor `1 - min(usage, 12) * 0.025`, including the implicit
factor `1` when usage is zero. -/
def usageFactor (usageV : ℕ) : ℚ := 1 - (min usageV 12 : ℕ) * (1 / 40)

theorem usageFactor_pos (usageV : ℕ) : 0 < usageFactor usageV := by
  unfold usageFactor
  have h : (min usageV 12 : ℕ) ≤ 12 := min_le_right _ _
  have h' : ((min usageV 12 : ℕ) : ℚ) ≤ 12 := by exact_mod_cast h
  linarith

/-- The usage-discount branch (step 2 of `moveCost`) equals multiplication by
`usageFactor`. -/
theorem usage_step (B : ℚ) (u : ℕ) :
    (if 0 < u then B * (1 - (min u 12 : ℕ) * (1 / 40)) else B) =
      B * usageFactor u := by
  by_cases hu : 0 < u
  · rw [if_pos hu]; unfold usageFactor; ring
  · rw [if_neg hu]
    have hz : u = 0 := by omega
    subst hz
    unfold usageFactor
    norm_num

/-- `moveCost` factors as base cost times usage factor times the rest. -/
theorem moveCost_eq_factor (elevU elevV : ℚ) (usageV : ℕ) (influenceV : Option ℚ)
    (isDiag : Bool) :
    moveCost elevU elevV usageV influenceV isDiag =
      (if elevV = -1 then (15 : ℚ)
       else max (1 / 10) (if 0 < elevV - elevU then 1 + 5 * (elevV - elevU)
                          else 1 + (1 / 2) * (elevV - elevU)))
      * usageFactor usageV
      * (match influenceV with
         | some d => if d < 50 then (1 - 40 / 100 : ℚ) else 1
         | none => (1 : ℚ))
      * (if isDiag then SQRT2 else 1) := by
  unfold moveCost
  dsimp only
  rw [usage_step]
  rcases influenceV with _ | d
  · rcases isDiag with _ | _ <;> norm_num
  · dsimp only
    by_cases hd : d < 50
    · rw [if_pos hd, if_pos hd]
      rcases isDiag with _ | _ <;> norm_num
    · rw [if_neg hd, if_neg hd]
      rcases isDiag with _ | _ <;> norm_num

/-- Every edge cost is strictly positive. -/
theorem moveCost_pos (elevU elevV : ℚ) (usageV : ℕ) (influenceV : Option ℚ)
    (isDiag : Bool) : 0 < moveCost elevU elevV usageV influenceV isDiag := by
  rw [moveCost_eq_factor]
  have h1 := moveCost_step1_pos elevU elevV
  have h2 := usageFactor_pos usageV
  have h3 : (0 : ℚ) < (match influenceV with
      | some d => if d < 50 then (1 - 40 / 100 : ℚ) else 1
      | none => (1 : ℚ)) := by
    rcases influenceV with _ | d
    · norm_num
    · dsimp only
      split <;> norm_num
  have h4 : (0 : ℚ) < (if isDiag then SQRT2 else 1) := by
    split
    · exact SQRT2_pos
    · norm_num
  positivity

/-- Larger usage never increases the usage factor. -/
theorem usageFactor_antitone {u1 u2 : ℕ} (h : u1 ≤ u2) :
    usageFactor u2 ≤ usageFactor u1 := by
  unfold usageFactor
  have hmin : (min u1 12 : ℕ) ≤ min u2 12 := by omega
  have hmin' : ((min u1 12 : ℕ) : ℚ) ≤ ((min u2 12 : ℕ) : ℚ) := by exact_mod_cast hmin
  linarith

/-- C5: for every pair of adjacent pixels with fixed elevations and proximity
value, the edge cost into `v` is non-increasing as `usage(v)` increases from 0
up to the cap of 12, and for every `usage(v) ≥ 12` the edge cost equals the
cost at exactly 12 uses — no further discount (src/worker.js:571-577). -/
theorem C5_usage_discount_monotone (elevU elevV : ℚ) (influenceV : Option ℚ)
    (isDiag : Bool) :
    (∀ u1 u2 : ℕ, u1 ≤ u2 → u2 ≤ 12 →
      moveCost elevU elevV u2 influenceV isDiag ≤
        moveCost elevU elevV u1 influenceV isDiag) ∧
    (∀ u : ℕ, 12 ≤ u →
      moveCost elevU elevV u influenceV isDiag =
        moveCost elevU elevV 12 influenceV isDiag) := by
  have hbase := moveCost_step1_pos elevU elevV
  have hrest3 : (0 : ℚ) ≤ (match influenceV with
      | some d => if d < 50 then (1 - 40 / 100 : ℚ) else 1
      | none => (1 : ℚ)) := by
    rcases influenceV with _ | d
    · norm_num
    · dsimp only
      split <;> norm_num
  have hrest4 : (0 : ℚ) ≤ (if isDiag then SQRT2 else 1) := by
    split
    · exact SQRT2_pos.le
    · norm_num
  constructor
  · intro u1 u2 h12 _
    rw [moveCost_eq_factor, moveCost_eq_factor]
    have hf : usageFactor u2 ≤ usageFactor u1 := usageFactor_antitone h12
    have h1 := mul_le_mul_of_nonneg_left hf hbase.le
    have h2 := mul_le_mul_of_nonneg_right h1 hrest3
    exact mul_le_mul_of_nonneg_right h2 hrest4
  · intro u h12
    rw [moveCost_eq_factor, moveCost_eq_factor]
    have hf : usageFactor u = usageFactor 12 := by
      unfold usageFactor
      have hm : min u 12 = min 12 12 := by omega
      rw [hm]
    rw [hf]

/-- Witness for C5 at a concrete input. -/
theorem C5_usage_discount_monotone_witness :
    moveCost 0 0 2 none false ≤ moveCost 0 0 1 none false ∧
      moveCost 0 0 20 none false = moveCost 0 0 12 none false :=
  ⟨(C5_usage_discount_monotone 0 0 none false).1 1 2 (by decide) (by decide),
   (C5_usage_discount_monotone 0 0 none false).2 20 (by decide)⟩

/-- C7 fails as stated: the source's greyscale test (src/worker.js:148) compares
only the channel pairs (r,g) and (g,b), never (r,b), so the three channels need
not be mutually within the tolerance.  The pixel (0, 9, 18) is not mutually
within 10 units (|r-b| = 18), yet the code classifies it as land with elevation
0 rather than storing the water sentinel. -/
theorem C7_counterexample :
    elevationOfPixel 0 9 18 = 0 ∧ ¬ MutuallyWithinTolerance 0 9 18 ∧
      ¬ (∀ r g b : ℕ,
          elevationOfPixel r g b = -1 ↔ ¬ MutuallyWithinTolerance r g b) := by
  refine ⟨by decide, by decide, fun h => ?_⟩
  have h2 : elevationOfPixel 0 9 18 = -1 := (h 0 9 18).2 (by decide)
  rw [show elevationOfPixel 0 9 18 = 0 from by decide] at h2
  norm_num at h2

/-- C7 amended: a pixel is stored as the water sentinel `-1` exactly when one of
the adjacent channel pairs (r,g), (g,b) differs by at least the tolerance of 10
units (the source's greyscale test does not compare r with b); every other
pixel stores its red channel value as elevation, a value that is ≥ 0 and hence
distinct from the sentinel. -/
theorem C7_amended_classification (r g b : ℕ) :
    (elevationOfPixel r g b = -1 ↔
      ¬ (|(r : ℤ) - g| < 10 ∧ |(g : ℤ) - b| < 10)) ∧
    (r : ℚ) ≠ -1 ∧
    (elevationOfPixel r g b ≠ -1 → elevationOfPixel r g b = r) := by
  have hr : (0 : ℚ) ≤ r := Nat.cast_nonneg r
  have hrne : (r : ℚ) ≠ -1 := by
    intro h
    rw [h] at hr
    norm_num at hr
  refine ⟨?_, hrne, ?_⟩
  · unfold elevationOfPixel isGrey waterThreshold
    split
    · rename_i h
      simp only [Bool.and_eq_true, decide_eq_true_eq] at h
      exact ⟨fun he => absurd he hrne, fun hn => absurd h hn⟩
    · rename_i h
      simp only [Bool.and_eq_true, decide_eq_true_eq] at h
      exact ⟨fun _ => h, fun _ => rfl⟩
  · unfold elevationOfPixel
    split
    · intro _; rfl
    · intro hne; exact absurd rfl hne

/-! ## 8-neighbourhood of a pixel (src/worker.js:272-292) -/

/-- Pixel x-coordinate from a flat index (`index % width`). -/
def xOf (index width : ℕ) : ℕ := index % width

/-- Pixel y-coordinate from a flat index (`Math.floor(index / width)`). -/
def yOf (index width : ℕ) : ℕ := index / width

/-- One entry of the list produced by `getNeighbors`: the neighbour's flat
index, its diagonal flag, and the row/column offsets `i`, `j`. -/
structure Neighbor where
  index : ℕ
  isDiagonal : Bool
  i : ℤ
  j : ℤ
  deriving DecidableEq, Repr

/-- The offsets (i, j) enumerated by the nested loops of `getNeighbors`
(src/worker.js:278-280): row offset `i` outer, column offset `j` inner, with
the pair (0, 0) skipped. -/
def neighborOffsets : List (ℤ × ℤ) :=
  [(-1, -1), (-1, 0), (-1, 1), (0, -1), (0, 1), (1, -1), (1, 0), (1, 1)]

/-- `getNeighbors` (src/worker.js:272-292): the in-bounds 8-neighbours of a
pixel in loop order, with diagonal flags and offsets. -/
def getNeighbors (index width height : ℕ) : List Neighbor :=
  let x : ℤ := (xOf index width : ℕ)
  let y : ℤ := (yOf index width : ℕ)
  neighborOffsets.filterMap fun p =>
    let nx := x + p.2
    let ny := y + p.1
    if 0 ≤ nx ∧ nx < width ∧ 0 ≤ ny ∧ ny < height then
      some ⟨(ny * width + nx).toNat, decide (p.1 ≠ 0) && decide (p.2 ≠ 0), p.1, p.2⟩
    else none

/-- Two pixel indices are 8-adjacent on a `width × height` grid: both in
range, distinct, and their coordinates differ by at most one in each axis. -/
def Adjacent8 (width height a b : ℕ) : Prop :=
  a < width * height ∧ b < width * height ∧ a ≠ b ∧
    |(xOf a width : ℤ) - (xOf b width : ℤ)| ≤ 1 ∧
    |(yOf a width : ℤ) - (yOf b width : ℤ)| ≤ 1

instance (w h a b : ℕ) : Decidable (Adjacent8 w h a b) := by
  unfold Adjacent8; infer_instance

/-- Weight of one step between two pixels: `Math.SQRT2` if the step is
diagonal (both coordinates change), `1` otherwise. -/
def stepW (width a b : ℕ) : ℚ :=
  if xOf a width ≠ xOf b width ∧ yOf a width ≠ yOf b width then SQRT2 else 1

/-- Recovering coordinates from a flat index built from in-range coordinates. -/
theorem coords_of_flat (width height : ℕ) (nx ny : ℤ)
    (hx0 : 0 ≤ nx) (hxw : nx < width) (hy0 : 0 ≤ ny) (hyh : ny < height) :
    (ny * width + nx).toNat < width * height ∧
    ((xOf (ny * width + nx).toNat width : ℤ) = nx) ∧
    ((yOf (ny * width + nx).toNat width : ℤ) = ny) := by
  have hw : 0 < width := by
    rcases Nat.eq_zero_or_pos width with hz | hpos
    · subst hz; simp at hxw; omega
    · exact hpos
  lift nx to ℕ using hx0 with NX
  lift ny to ℕ using hy0 with NY
  have hNX : NX < width := by exact_mod_cast hxw
  have hNY : NY < height := by exact_mod_cast hyh
  have hflat : ((NY : ℤ) * width + NX).toNat = NY * width + NX := by
    omega
  refine ⟨?_, ?_, ?_⟩
  · rw [hflat]
    calc NY * width + NX < NY * width + width := by omega
    _ = (NY + 1) * width := by ring
    _ ≤ height * width := Nat.mul_le_mul_right _ (by omega)
    _ = width * height := Nat.mul_comm _ _
  · rw [hflat]
    unfold xOf
    have hmod : (NY * width + NX) % width = NX := by
      rw [Nat.add_comm, Nat.add_mul_mod_self_right, Nat.mod_eq_of_lt hNX]
    rw [hmod]
  · rw [hflat]
    unfold yOf
    have hdiv : (NY * width + NX) / width = NY := by
      rw [Nat.add_comm, Nat.add_mul_div_right _ _ hw, Nat.div_eq_of_lt hNX]
      omega
    rw [hdiv]

/-- Soundness of `getNeighbors`: every produced entry is an in-range pixel
8-adjacent to `u`, its coordinates are `u`'s shifted by the offsets, its
diagonal flag matches the coordinate test, and the step weight it induces in
the search agrees with `stepW`. -/
theorem getNeighbors_sound (u width height : ℕ) (hu : u < width * height)
    (nb : Neighbor) (hnb : nb ∈ getNeighbors u width height) :
    Adjacent8 width height u nb.index ∧
    ((xOf nb.index width : ℤ) = (xOf u width : ℤ) + nb.j) ∧
    ((yOf nb.index width : ℤ) = (yOf u width : ℤ) + nb.i) ∧
    (nb.isDiagonal = true ↔
      (xOf nb.index width ≠ xOf u width ∧ yOf nb.index width ≠ yOf u width)) ∧
    stepW width u nb.index = (if nb.isDiagonal then SQRT2 else 1) ∧
    (-1 ≤ nb.i ∧ nb.i ≤ 1 ∧ -1 ≤ nb.j ∧ nb.j ≤ 1 ∧ ¬(nb.i = 0 ∧ nb.j = 0)) := by
  simp only [getNeighbors] at hnb
  rcases List.mem_filterMap.mp hnb with ⟨p, hp, hf⟩
  have hpb : -1 ≤ p.1 ∧ p.1 ≤ 1 ∧ -1 ≤ p.2 ∧ p.2 ≤ 1 ∧ ¬(p.1 = 0 ∧ p.2 = 0) := by
    fin_cases hp <;> norm_num
  by_cases hcond : 0 ≤ (xOf u width : ℤ) + p.2 ∧ (xOf u width : ℤ) + p.2 < width ∧
      0 ≤ (yOf u width : ℤ) + p.1 ∧ (yOf u width : ℤ) + p.1 < height
  · rw [if_pos hcond] at hf
    obtain ⟨hx0, hxw, hy0, hyh⟩ := hcond
    obtain rfl := Option.some.inj hf
    obtain ⟨hrange, hxeq, hyeq⟩ :=
      coords_of_flat width height _ _ hx0 hxw hy0 hyh
    dsimp only at hrange hxeq hyeq ⊢
    set v : ℕ :=
      ((((yOf u width : ℕ) : ℤ) + p.1) * width + (((xOf u width : ℕ) : ℤ) + p.2)).toNat with hv
    have hxne : xOf v width ≠ xOf u width ↔ p.2 ≠ 0 := by
      constructor
      · intro hne h0
        apply hne
        have hz : (xOf v width : ℤ) = xOf u width := by rw [hxeq, h0, add_zero]
        exact_mod_cast hz
      · intro h0 heq
        apply h0
        have hc : (xOf v width : ℤ) = xOf u width := by exact_mod_cast heq
        omega
    have hyne : yOf v width ≠ yOf u width ↔ p.1 ≠ 0 := by
      constructor
      · intro hne h0
        apply hne
        have hz : (yOf v width : ℤ) = yOf u width := by rw [hyeq, h0, add_zero]
        exact_mod_cast hz
      · intro h0 heq
        apply h0
        have hc : (yOf v width : ℤ) = yOf u width := by exact_mod_cast heq
        omega
    refine ⟨⟨hu, hrange, ?_, ?_, ?_⟩, hxeq, hyeq, ?_, ?_, hpb⟩
    · intro heq
      rw [← heq] at hxeq hyeq
      exact hpb.2.2.2.2 ⟨by omega, by omega⟩
    · rw [abs_le]
      constructor <;> omega
    · rw [abs_le]
      constructor <;> omega
    · simp only [Bool.and_eq_true, decide_eq_true_eq]
      rw [hxne, hyne]
      tauto
    · unfold stepW
      by_cases hdiag : p.1 ≠ 0 ∧ p.2 ≠ 0
      · rw [if_pos (by rw [ne_comm (b := xOf u width)] at hxne
                       rw [ne_comm (b := yOf u width)] at hyne
                       exact ⟨hxne.mpr hdiag.2, hyne.mpr hdiag.1⟩)]
        have hbt : (decide (p.1 ≠ 0) && decide (p.2 ≠ 0)) = true := by
          simp only [Bool.and_eq_true, decide_eq_true_eq]
          exact hdiag
        rw [hbt]
        rfl
      · have hbf : (decide (p.1 ≠ 0) && decide (p.2 ≠ 0)) = false := by
          rcases not_and_or.mp hdiag with h | h <;> simp [not_not.mp h]
        rw [hbf]
        rw [if_neg]
        · rfl
        · intro hc
          rcases not_and_or.mp hdiag with h | h
          · exact (hyne.mp (Ne.symm hc.2)) (not_not.mp h)
          · exact (hxne.mp (Ne.symm hc.1)) (not_not.mp h)
  · rw [if_neg hcond] at hf
    exact absurd hf (by simp)

/-! ## Settlements and the city-influence BFS (src/worker.js:160-192) -/

/-- A settlement as held in `state.cities` (src/worker.js:77-88): name,
population and fractional pixel coordinates. -/
structure City where
  name : String
  population : ℚ
  x : ℚ
  y : ℚ
  deriving DecidableEq, Repr

/-- State of the multi-source BFS that fills `cityInfluenceGrid`: the value
grid (`none` = `Infinity`), the work queue, and the head cursor. -/
structure BfsState where
  vals : ℕ → Option ℚ
  queue : List ℕ
  head : ℕ

/-- `searchRadius` (src/worker.js:174). -/
def searchRadius : ℚ := 50

/-- BFS seeding (src/worker.js:162-171): every settlement whose rounded pixel
lies on the grid gets distance 0 and is pushed on the queue, in list order. -/
def seedCities (cities : List City) (width height : ℕ) : BfsState :=
  cities.foldl
    (fun st city =>
      let x := jsRound city.x
      let y := jsRound city.y
      if 0 ≤ x ∧ x < width ∧ 0 ≤ y ∧ y < height then
        let index := (y * width + x).toNat
        ⟨fun n => if n = index then some 0 else st.vals n,
         st.queue ++ [index], st.head⟩
      else st)
    ⟨fun _ => none, [], 0⟩

/-- The inner neighbour loop of the BFS (src/worker.js:181-191): assign
`u_dist + (isDiagonal ? Math.SQRT2 : 1)` to each still-`Infinity` neighbour
whose new distance is within the radius, and push it. -/
def bfsRelax (width height u : ℕ) (uDist : ℚ) (st : BfsState) : BfsState :=
  (getNeighbors u width height).foldl
    (fun st nb =>
      let v := nb.index
      match st.vals v with
      | some _ => st
      | none =>
        let newDist := uDist + (if nb.isDiagonal then SQRT2 else 1)
        if newDist ≤ searchRadius then
          ⟨fun n => if n = v then some newDist else st.vals n,
           st.queue ++ [v], st.head⟩
        else st)
    st

/-- The BFS main loop (src/worker.js:175-192), with explicit fuel: pop the
head of the queue, skip it if its distance is `Infinity` or at least the
radius, otherwise relax its neighbours. -/
def bfsLoop (width height : ℕ) : ℕ → BfsState → BfsState
  | 0, st => st
  | fuel + 1, st =>
    if st.head < st.queue.length then
      let u := st.queue.getD st.head 0
      let st1 : BfsState := ⟨st.vals, st.queue, st.head + 1⟩
      match st.vals u with
      | none => bfsLoop width height fuel st1
      | some uDist =>
        if searchRadius ≤ uDist then bfsLoop width height fuel st1
        else bfsLoop width height fuel (bfsRelax width height u uDist st1)
    else st

/-- `cityInfluenceGrid` as computed by `createCostGrid` (src/worker.js:160-192).
The fuel dominates the number of queue entries: beyond the seeds, an index is
pushed only when its cell flips from `Infinity` to a finite value, which
happens at most `width * height` times. -/
def cityInfluenceGrid (cities : List City) (width height : ℕ) : ℕ → Option ℚ :=
  let st0 := seedCities cities width height
  (bfsLoop width height (st0.queue.length + width * height + 1) st0).vals

/-! ## Pixel paths (specification side, for claims C1 and C6) -/

/-- Boolean 8-adjacency chain over a list of pixel indices. -/
def chain8 (width height : ℕ) : List ℕ → Bool
  | a :: b :: rest =>
    decide (Adjacent8 width height a b) && chain8 width height (b :: rest)
  | _ => true

/-- Total weight of a pixel path: 1 per orthogonal step, `SQRT2` per diagonal
step. -/
def pathWeight (width : ℕ) : List ℕ → ℚ
  | a :: b :: rest => stepW width a b + pathWeight width (b :: rest)
  | _ => 0

/-- `p` is the rounded, in-bounds pixel index of some settlement of the list. -/
def SeedPixel (cities : List City) (width height p : ℕ) : Prop :=
  ∃ c ∈ cities,
    0 ≤ jsRound c.x ∧ jsRound c.x < width ∧ 0 ≤ jsRound c.y ∧ jsRound c.y < height ∧
    p = (jsRound c.y * width + jsRound c.x).toNat

instance (cities : List City) (w h p : ℕ) : Decidable (SeedPixel cities w h p) := by
  unfold SeedPixel; infer_instance

/-- The head of the list is a settlement pixel. -/
def HeadIsSeed (cities : List City) (width height : ℕ) : List ℕ → Prop
  | [] => False
  | a :: _ => SeedPixel cities width height a

instance (cities : List City) (w h : ℕ) :
    (l : List ℕ) → Decidable (HeadIsSeed cities w h l)
  | [] => isFalse id
  | a :: _ => inferInstanceAs (Decidable (SeedPixel cities w h a))

/-- `l` is an 8-connected pixel path from some settlement pixel to `p`. -/
def SettlementPath (cities : List City) (width height p : ℕ) (l : List ℕ) : Prop :=
  l ≠ [] ∧ HeadIsSeed cities width height l ∧
  chain8 width height l = true ∧ l.getLast? = some p

instance (cities : List City) (w h p : ℕ) (l : List ℕ) :
    Decidable (SettlementPath cities w h p l) := by
  unfold SettlementPath
  infer_instance

/-- Some settlement path of weight `d` reaches `p`. -/
def PathTo (cities : List City) (width height p : ℕ) (d : ℚ) : Prop :=
  ∃ l, SettlementPath cities width height p l ∧ pathWeight width l = d

/-- Appending an adjacent pixel to a chain keeps it a chain. -/
theorem chain8_concat (width height v : ℕ) :
    ∀ (l : List ℕ) (u : ℕ), chain8 width height l = true →
      l.getLast? = some u → Adjacent8 width height u v →
      chain8 width height (l ++ [v]) = true
  | [], _, _, hl, _ => by simp at hl
  | [a], u, _, hl, hadj => by
    simp only [List.getLast?_singleton, Option.some.injEq] at hl
    subst hl
    simp only [List.singleton_append, chain8, Bool.and_eq_true, decide_eq_true_eq]
    exact ⟨hadj, trivial⟩
  | a :: b :: rest, u, hc, hl, hadj => by
    simp only [chain8, Bool.and_eq_true] at hc
    have hl' : (b :: rest).getLast? = some u := by
      rw [← hl]
      exact List.getLast?_cons_cons.symm
    have := chain8_concat width height v (b :: rest) u hc.2 hl' hadj
    simp only [List.cons_append, List.append_eq, chain8, Bool.and_eq_true] at this ⊢
    exact ⟨hc.1, this⟩

/-- Weight of a chain extended by one step. -/
theorem pathWeight_concat (width v : ℕ) :
    ∀ (l : List ℕ) (u : ℕ), l.getLast? = some u →
      pathWeight width (l ++ [v]) = pathWeight width l + stepW width u v
  | [], _, hl => by simp at hl
  | [a], u, hl => by
    simp only [List.getLast?_singleton, Option.some.injEq] at hl
    subst hl
    simp only [List.singleton_append, pathWeight]
    ring
  | a :: b :: rest, u, hl => by
    have hl' : (b :: rest).getLast? = some u := by
      rw [← hl]
      exact List.getLast?_cons_cons.symm
    have := pathWeight_concat width v (b :: rest) u hl'
    simp only [List.cons_append, List.append_eq, pathWeight] at this ⊢
    rw [this]
    ring

/-- Invariant of the BFS state: every assigned cell is in range and its value
is the weight of an actual settlement path, between 0 and the radius. -/
def BfsInv (cities : List City) (width height : ℕ) (st : BfsState) : Prop :=
  ∀ p d, st.vals p = some d →
    p < width * height ∧ 0 ≤ d ∧ d ≤ 50 ∧ PathTo cities width height p d

/-- The head of a non-empty path survives appending. -/
theorem headIsSeed_concat (cities : List City) (width height v : ℕ) :
    ∀ l : List ℕ, l ≠ [] → HeadIsSeed cities width height l →
      HeadIsSeed cities width height (l ++ [v])
  | [], hne, _ => absurd rfl hne
  | _ :: _, _, hh => hh

/-- Seeding establishes the BFS invariant. -/
theorem seed_fold_inv (width height : ℕ) (cities : List City) :
    ∀ (cs : List City) (st : BfsState), (∀ c ∈ cs, c ∈ cities) →
      BfsInv cities width height st →
      BfsInv cities width height
        (cs.foldl
          (fun st city =>
            let x := jsRound city.x
            let y := jsRound city.y
            if 0 ≤ x ∧ x < width ∧ 0 ≤ y ∧ y < height then
              let index := (y * width + x).toNat
              ⟨fun n => if n = index then some 0 else st.vals n,
               st.queue ++ [index], st.head⟩
            else st) st)
  | [], _, _, hinv => hinv
  | c :: cs, st, hsub, hinv => by
    rw [List.foldl_cons]
    apply seed_fold_inv width height cities cs _
      (fun c' hc' => hsub c' (List.mem_cons_of_mem _ hc'))
    dsimp only
    split
    · rename_i hcb
      intro p d hpd
      dsimp only at hpd
      by_cases hp : p = ((jsRound c.y) * width + jsRound c.x).toNat
      · rw [if_pos hp] at hpd
        obtain rfl : (0 : ℚ) = d := Option.some.inj hpd
        obtain ⟨hx0, hxw, hy0, hyh⟩ := hcb
        obtain ⟨hrange, _, _⟩ := coords_of_flat width height _ _ hx0 hxw hy0 hyh
        subst hp
        refine ⟨hrange, le_refl 0, by norm_num, [_], ⟨?_, ?_, rfl, rfl⟩, rfl⟩
        · simp
        · exact ⟨c, hsub c (List.mem_cons_self c cs), hx0, hxw, hy0, hyh, rfl⟩
      · rw [if_neg hp] at hpd
        exact hinv p d hpd
    · exact hinv

/-- The neighbour-relaxation fold preserves the BFS invariant. -/
theorem bfsRelax_fold_inv (cities : List City) (width height u : ℕ) (uDist : ℚ) :
    ∀ (L : List Neighbor) (st : BfsState),
      (∀ nb ∈ L, nb ∈ getNeighbors u width height) →
      BfsInv cities width height st → st.vals u = some uDist →
      BfsInv cities width height
        (L.foldl
          (fun st nb =>
            let v := nb.index
            match st.vals v with
            | some _ => st
            | none =>
              let newDist := uDist + (if nb.isDiagonal then SQRT2 else 1)
              if newDist ≤ searchRadius then
                ⟨fun n => if n = v then some newDist else st.vals n,
                 st.queue ++ [v], st.head⟩
              else st) st)
  | [], _, _, hinv, _ => hinv
  | nb :: L, st, hmem, hinv, hu => by
    rw [List.foldl_cons]
    have hmem' : ∀ nb' ∈ L, nb' ∈ getNeighbors u width height :=
      fun nb' h => hmem nb' (List.mem_cons_of_mem _ h)
    obtain ⟨huR, hu0, hu50, l, hsp, hwl⟩ := hinv u uDist hu
    obtain ⟨hadj, _, _, _, hstep, _⟩ :=
      getNeighbors_sound u width height huR nb (hmem nb (List.mem_cons_self nb L))
    dsimp only
    cases hv : st.vals nb.index with
    | some d0 => exact bfsRelax_fold_inv cities width height u uDist L st hmem' hinv hu
    | none =>
      by_cases hle : uDist + (if nb.isDiagonal then SQRT2 else 1) ≤ searchRadius
      · rw [if_pos hle]
        have hne : u ≠ nb.index := hadj.2.2.1
        apply bfsRelax_fold_inv cities width height u uDist L _ hmem'
        · intro p d hpd
          dsimp only at hpd
          by_cases hp : p = nb.index
          · rw [if_pos hp] at hpd
            obtain rfl := Option.some.inj hpd
            subst hp
            have hstep1 : (1 : ℚ) ≤ (if nb.isDiagonal then SQRT2 else 1) := by
              split
              · exact one_lt_SQRT2.le
              · exact le_refl 1
            refine ⟨hadj.2.1, by linarith, ?_, ?_⟩
            · exact hle
            · obtain ⟨hlne, hhead, hchain, hlast⟩ := hsp
              refine ⟨l ++ [nb.index], ⟨?_, ?_, ?_, ?_⟩, ?_⟩
              · simp
              · exact headIsSeed_concat cities width height nb.index l hlne hhead
              · exact chain8_concat width height nb.index l u hchain hlast hadj
              · exact List.getLast?_concat l
              · rw [pathWeight_concat width nb.index l u hlast, hwl, hstep]
          · rw [if_neg hp] at hpd
            exact hinv p d hpd
        · dsimp only
          rw [if_neg hne]
          exact hu
      · rw [if_neg hle]
        exact bfsRelax_fold_inv cities width height u uDist L st hmem' hinv hu

/-- One full neighbour relaxation preserves the BFS invariant. -/
theorem bfsRelax_inv (cities : List City) (width height u : ℕ) (uDist : ℚ)
    (st : BfsState) (hinv : BfsInv cities width height st)
    (hu : st.vals u = some uDist) :
    BfsInv cities width height (bfsRelax width height u uDist st) :=
  bfsRelax_fold_inv cities width height u uDist
    (getNeighbors u width height) st (fun _ h => h) hinv hu

/-- The BFS loop preserves the invariant for any fuel. -/
theorem bfsLoop_inv (cities : List City) (width height : ℕ) :
    ∀ (fuel : ℕ) (st : BfsState), BfsInv cities width height st →
      BfsInv cities width height (bfsLoop width height fuel st)
  | 0, _, hinv => hinv
  | fuel + 1, st, hinv => by
    unfold bfsLoop
    split
    · dsimp only
      rcases hv : st.vals (st.queue.getD st.head 0) with _ | uDist <;> simp only [hv]
      · exact bfsLoop_inv cities width height fuel _ hinv
      · split
        · exact bfsLoop_inv cities width height fuel _ hinv
        · exact bfsLoop_inv cities width height fuel _
            (bfsRelax_inv cities width height _ uDist _ hinv hv)
    · exact hinv

/-- Soundness of the proximity field: every finite value is realised by an
actual settlement path of that exact total weight, and lies within the radius. -/
theorem cityInfluenceGrid_sound (cities : List City) (width height p : ℕ) (d : ℚ)
    (hv : cityInfluenceGrid cities width height p = some d) :
    p < width * height ∧ 0 ≤ d ∧ d ≤ 50 ∧ PathTo cities width height p d := by
  unfold cityInfluenceGrid at hv
  exact bfsLoop_inv cities width height _ _
    (seed_fold_inv width height cities cities _ (fun _ h => h)
      (fun p d h => absurd h (by simp))) p d hv

/-- Test settlement used in concrete counterexample grids. -/
def cityA : City := ⟨"A", 1, 2, 2⟩

unseal Rat.add Rat.mul Rat.inv Rat.sub in
/-- C6 fails as stated: the proximity build is a FIFO expansion with weighted
steps, so a cell can be reached first along a heavier (diagonal) route and is
never updated afterwards.  On a 5×5 grid with the single settlement at (2, 2),
cell (0, 2) (index 10) receives `2·Math.SQRT2 ≈ 2.83`, yet the two-step
orthogonal settlement path `[12, 11, 10]` has weight 2, so the stored finite
value is not the length of a shortest 8-connected path. -/
theorem C6_counterexample :
    cityInfluenceGrid [cityA] 5 5 10 = some (2 * SQRT2) ∧
    SettlementPath [cityA] 5 5 10 [12, 11, 10] ∧
    pathWeight 5 [12, 11, 10] = 2 ∧ (2 : ℚ) < 2 * SQRT2 := by decide

/-- C6 amended: after the proximity build, every cell holding a finite value
holds the exact weight of SOME 8-connected path (orthogonal steps 1, diagonal
steps `Math.SQRT2`) from a settlement pixel to that cell — not necessarily a
shortest one — that value is between 0 and the radius 50, and every cell all
of whose settlement paths weigh more than the radius holds the far sentinel
(`Infinity`). -/
theorem C6_amended_proximity (cities : List City) (width height p : ℕ) :
    (∀ d, cityInfluenceGrid cities width height p = some d →
      p < width * height ∧ 0 ≤ d ∧ d ≤ 50 ∧ PathTo cities width height p d) ∧
    ((∀ l, SettlementPath cities width height p l → 50 < pathWeight width l) →
      cityInfluenceGrid cities width height p = none) := by
  constructor
  · intro d hd
    exact cityInfluenceGrid_sound cities width height p d hd
  · intro hfar
    cases hval : cityInfluenceGrid cities width height p with
    | none => rfl
    | some d =>
      obtain ⟨_, _, hd50, l, hsp, hw⟩ :=
        cityInfluenceGrid_sound cities width height p d hval
      have hgt := hfar l hsp
      rw [hw] at hgt
      linarith

unseal Rat.add Rat.mul Rat.inv Rat.sub in
/-- Witness for the amended C6 at a concrete grid. -/
theorem C6_amended_proximity_witness :
    12 < 5 * 5 ∧ (0 : ℚ) ≤ 0 ∧ (0 : ℚ) ≤ 50 ∧ PathTo [cityA] 5 5 12 0 :=
  (C6_amended_proximity [cityA] 5 5 12).1 0 (by decide)

/-! ## The binary-heap PriorityQueue (src/worker.js:202-270) -/

/-- One heap entry: payload and numeric priority. -/
structure Entry (α : Type) where
  element : α
  priority : ℚ
  deriving DecidableEq, Repr

/-- `bubbleUp` (src/worker.js:226-236), fuelled: repeatedly swap the entry at
`n` with its parent while the entry's priority is strictly below the parent's.
The index strictly decreases, so fuel `n + 1` (used by `bubbleUp`) always
suffices.  The source only calls it on an in-range index; on an out-of-range
index the model leaves the heap unchanged. -/
def bubbleUpGo {α : Type} : ℕ → List (Entry α) → ℕ → List (Entry α)
  | 0, heap, _ => heap
  | fuel + 1, heap, n =>
    if n = 0 then heap
    else
      let parentN := (n - 1) / 2
      match heap.get? n, heap.get? parentN with
      | some element, some parent =>
        if element.priority ≥ parent.priority then heap
        else bubbleUpGo fuel ((heap.set parentN element).set n parent) parentN
      | _, _ => heap

/-- `bubbleUp` with its always-sufficient fuel. -/
def bubbleUp {α : Type} (heap : List (Entry α)) (n : ℕ) : List (Entry α) :=
  bubbleUpGo (n + 1) heap n

/-- The `swap` index selected by one round of `sinkDown`
(src/worker.js:243-261): `swap` starts `null`; it becomes `child1N` when
child 1 exists and beats the sinking element; it becomes `child2N` when
child 2 exists and beats the current comparison value (the element if `swap`
is still `null`, child 1 otherwise).  The branches below enumerate exactly
those cases; a missing child 1 implies a missing child 2. -/
def sinkSwap {α : Type} (heap : List (Entry α)) (n : ℕ) (element : Entry α) :
    Option ℕ :=
  match heap.get? ((n + 1) * 2), heap.get? ((n + 1) * 2 - 1) with
  | some child2, some child1 =>
    if child1.priority < element.priority then
      if child2.priority < child1.priority then some ((n + 1) * 2)
      else some ((n + 1) * 2 - 1)
    else
      if child2.priority < element.priority then some ((n + 1) * 2)
      else none
  | none, some child1 =>
    if child1.priority < element.priority then some ((n + 1) * 2 - 1) else none
  | _, none => none

/-- A selected swap index is a strictly deeper, in-range position. -/
theorem sinkSwap_gt {α : Type} (heap : List (Entry α)) (n : ℕ) (element : Entry α)
    (s : ℕ) (hs : sinkSwap heap n element = some s) :
    n < s ∧ s < heap.length := by
  unfold sinkSwap at hs
  rcases h2 : heap.get? ((n + 1) * 2) with _ | child2
  · rcases h1 : heap.get? ((n + 1) * 2 - 1) with _ | child1
    · rw [h2, h1] at hs
      exact Option.noConfusion hs
    · obtain ⟨hlen, -⟩ := List.get?_eq_some.mp h1
      rw [h2, h1] at hs
      dsimp only at hs
      by_cases hc : child1.priority < element.priority
      · rw [if_pos hc] at hs
        obtain rfl : _ = s := Option.some.inj hs
        omega
      · rw [if_neg hc] at hs
        exact Option.noConfusion hs
  · rcases h1 : heap.get? ((n + 1) * 2 - 1) with _ | child1
    · rw [h2, h1] at hs
      exact Option.noConfusion hs
    · obtain ⟨hlen1, -⟩ := List.get?_eq_some.mp h1
      obtain ⟨hlen2, -⟩ := List.get?_eq_some.mp h2
      rw [h2, h1] at hs
      dsimp only at hs
      by_cases hc : child1.priority < element.priority
      · rw [if_pos hc] at hs
        by_cases hd : child2.priority < child1.priority
        · rw [if_pos hd] at hs
          obtain rfl : _ = s := Option.some.inj hs
          omega
        · rw [if_neg hd] at hs
          obtain rfl : _ = s := Option.some.inj hs
          omega
      · rw [if_neg hc] at hs
        by_cases hd : child2.priority < element.priority
        · rw [if_pos hd] at hs
          obtain rfl : _ = s := Option.some.inj hs
          omega
        · rw [if_neg hd] at hs
          exact Option.noConfusion hs

/-- `sinkDown` (src/worker.js:238-269), fuelled: repeatedly swap the entry at
`n` with its smaller out-of-order child.  As in the source, the sinking
entry's priority is fixed at entry to the loop.  The index strictly increases
below the (fixed) length, so fuel `heap.length + 1` (used by `sinkDown`)
always suffices. -/
def sinkDownGo {α : Type} : ℕ → List (Entry α) → ℕ → List (Entry α)
  | 0, heap, _ => heap
  | fuel + 1, heap, n =>
    match heap.get? n with
    | none => heap
    | some element =>
      match sinkSwap heap n element with
      | none => heap
      | some s =>
        match heap.get? s with
        | none => heap
        | some hs => sinkDownGo fuel ((heap.set n hs).set s element) s

/-- `sinkDown` with its always-sufficient fuel. -/
def sinkDown {α : Type} (heap : List (Entry α)) (n : ℕ) : List (Entry α) :=
  sinkDownGo (heap.length + 1) heap n

/-- `enqueue` (src/worker.js:207-210): push then bubble up from the last
position. -/
def enqueue {α : Type} (heap : List (Entry α)) (element : α) (priority : ℚ) :
    List (Entry α) :=
  let h := heap ++ [⟨element, priority⟩]
  bubbleUp h (h.length - 1)

/-- `dequeue` (src/worker.js:212-220): return the root element; move the last
entry to the root and sink it down.  Returns `none` on the empty heap, where
the source would crash reading `undefined.element` (the search loop guards
every call with `isEmpty`). -/
def dequeue {α : Type} (heap : List (Entry α)) : Option (α × List (Entry α)) :=
  match heap with
  | [] => none
  | [min] => some (min.element, [])
  | min :: rest =>
    match rest.getLast? with
    | some last => some (min.element, sinkDown (last :: rest.dropLast) 0)
    | none => none

/-! ## The shortest-path search (src/worker.js:339-624) -/

/-- The immutable data of one `findPath` call: grid dimensions, the three
per-pixel fields, the rounded endpoint pixels, and the derived iteration
limit. -/
structure SearchEnv where
  width : ℕ
  height : ℕ
  elevation : ℕ → ℚ
  roadUsage : ℕ → ℕ
  influence : ℕ → Option ℚ
  startIndex : ℕ
  endIndex : ℕ
  endX : ℕ
  endY : ℕ
  sldSq : ℕ

/-- `straightLineDistance > 1000` (src/worker.js:379), decided exactly on the
squared distance. -/
def SearchEnv.isLong (env : SearchEnv) : Bool := decide (1000000 < env.sldSq)

/-- `maxIterations = Math.floor(width*height * min(5, max(1, d/1000)))`
(src/worker.js:387-389) where `d = sqrt sldSq`, computed exactly:
if `d ≤ 1000` the multiplier is 1; if `d ≥ 5000` it is 5; otherwise
`⌊N·d/1000⌋ = ⌊√(N²·sldSq)⌋/1000`. -/
def SearchEnv.maxIterations (env : SearchEnv) : ℕ :=
  let N := env.width * env.height
  if env.sldSq ≤ 1000000 then N
  else if 25000000 ≤ env.sldSq then 5 * N
  else Nat.sqrt (N ^ 2 * env.sldSq) / 1000

/-- Squared euclidean distance from pixel `u` to the target
(src/worker.js:427-429; the source compares square roots, which is equivalent
to comparing the squares). -/
def SearchEnv.distSqToEnd (env : SearchEnv) (u : ℕ) : ℕ :=
  (((env.endX : ℤ) - xOf u env.width) ^ 2 +
   ((env.endY : ℤ) - yOf u env.width) ^ 2).toNat

/-- The mutable state of the search loop (src/worker.js:357-384):
priority queue, distances (`none` = `Infinity`), direction-coded predecessors
(255 = unset), visited flags, the three counters, the pending progress batch
(`visitedForUpdate`), and bookkeeping for logging.  `trace` is the list of
`postMessage` tags emitted so far, in order. -/
structure SearchState where
  pq : List (Entry ℕ)
  dist : ℕ → Option ℚ
  pred : ℕ → ℕ
  visited : ℕ → Bool
  count : ℕ
  processedCount : ℕ
  visitedCount : ℕ
  batch : List ℕ
  lastUpdateCount : ℕ
  bestDistSq : ℕ
  lastProgressCheck : ℕ
  trace : List String

/-- The direction code stored in `predecessors[v]` when `v` is relaxed from
`u` through neighbour record `nb` (src/worker.js:603-607):
`(-i + 1) * 3 + (-j + 1)`. -/
def directionCode (nb : Neighbor) : ℕ := ((-nb.i + 1) * 3 + (-nb.j + 1)).toNat

/-- The `moveCost` of the edge from `u` into neighbour `nb`
(src/worker.js:540-591). -/
def moveCostOf (env : SearchEnv) (u : ℕ) (nb : Neighbor) : ℚ :=
  moveCost (env.elevation u) (env.elevation nb.index)
    (env.roadUsage nb.index) (env.influence nb.index) nb.isDiagonal

/-- One neighbour relaxation (src/worker.js:532-611).  `prune` enables the
high-cost filtering branch of src/worker.js:596-598; the source has it on. -/
def relaxStep (prune : Bool) (env : SearchEnv) (u : ℕ) (uDist : ℚ)
    (st : SearchState) (nb : Neighbor) : SearchState :=
  let v := nb.index
  if st.visited v then st
  else
    let mc := moveCostOf env u nb
    let newDist := uDist + mc
    let pruned : Bool :=
      prune &&
        (match st.dist v with
         | some dv => decide (80 ≤ mc) && decide (dv * (105 / 100) < newDist)
         | none => false)
    if pruned then st
    else
      let doRelax : Bool :=
        match st.dist v with
        | some dv => decide (newDist < dv)
        | none => true
      if doRelax then
        { st with
          dist := fun n => if n = v then some newDist else st.dist n,
          pred := fun n => if n = v then directionCode nb else st.pred n,
          pq := enqueue st.pq v newDist }
      else st

/-- The path-reconstruction loop (src/worker.js:444-464), with fuel: prepend
the current pixel, stop at the start pixel, decode the stored direction and
step to the predecessor.  The boolean records whether the 255-code error log
was emitted.  Fuel exhaustion (provably unreachable from a search state, see
the reconstruction lemmas) returns the accumulated path. -/
def reconGo (env : SearchEnv) (st : SearchState) :
    ℕ → ℕ → List ℕ → List ℕ × Bool
  | 0, _, path => (path, false)
  | fuel + 1, current, path =>
    let path := current :: path
    if current = env.startIndex then (path, false)
    else
      let code := st.pred current
      if code = 255 then (path, true)
      else
        let dx : ℤ := (code % 3 : ℕ) - 1
        let dy : ℤ := (code / 3 : ℕ) - 1
        let currentX := xOf current env.width
        let currentY := yOf current env.width
        reconGo env st fuel
          ((((currentY : ℤ) + dy) * env.width + ((currentX : ℤ) + dx)).toNat) path

/-- Full path reconstruction from the end pixel. -/
def reconstructPath (env : SearchEnv) (st : SearchState) : List ℕ × Bool :=
  reconGo env st (env.width * env.height + 1) env.endIndex []

/-- How a `findPath` run ends: target popped (with the reconstructed path),
iteration-cap break, or queue exhaustion. -/
inductive SearchExit where
  | found (path : List ℕ) (st : SearchState)
  | capBreak (st : SearchState)
  | queueEmpty (st : SearchState)

/-- Append one `log`-tagged message (a `postMessage({type:'log',...})`). -/
def addLog (st : SearchState) : SearchState := { st with trace := st.trace ++ ["log"] }

/-- Marking a popped pixel visited (src/worker.js:406-407). -/
def markVisited (st : SearchState) (u : ℕ) : SearchState :=
  { st with visited := fun n => if n = u then true else st.visited n,
            visitedCount := st.visitedCount + 1 }

/-- The periodic step log (src/worker.js:416-423). -/
def stepLog (st : SearchState) : SearchState :=
  if st.count % 50000 = 0 then addLog st else st

/-- The long-distance progress monitor (src/worker.js:426-440): on schedule,
compare the squared distance to the target with the best seen (the source
compares the square roots, equivalently), log on improvement, and remember
the checkpoint. -/
def progressCheck (env : SearchEnv) (u : ℕ) (st : SearchState) : SearchState :=
  if env.isLong ∧ 100000 ≤ st.count - st.lastProgressCheck then
    let curSq := env.distSqToEnd u
    let st' :=
      if curSq < st.bestDistSq then
        { st with bestDistSq := curSq, trace := st.trace ++ ["log"] }
      else st
    { st' with lastProgressCheck := st'.count }
  else st

/-- The messages posted by the found branch (src/worker.js:444-482): the
reconstruction-error log if the 255 code was hit, the success log, and the
final batch flush when the pending batch is non-empty. -/
def foundWrap (env : SearchEnv) (st : SearchState) : SearchState :=
  let st := if (reconstructPath env st).2 then addLog st else st
  let st := addLog st
  if st.batch ≠ [] then { st with trace := st.trace ++ ["pathfindingUpdate"] }
  else st

/-- Post-pop bookkeeping for a non-target pixel (src/worker.js:486-530):
push to the pending batch, bump the counters, flush the batch when it reaches
the adaptive update frequency, and post the first-node debug logs (one line
plus one line per neighbour) when `count` is 1. -/
def postProcess (env : SearchEnv) (u : ℕ) (st : SearchState) : SearchState :=
  let st := { st with batch := st.batch ++ [u], count := st.count + 1,
                      processedCount := st.processedCount + 1 }
  let baseFrequency : ℕ := if env.isLong then 8000 else 2000
  let updateFrequency : ℕ :=
    min (baseFrequency + st.processedCount / 1000)
      (if env.isLong then 100000 else 50000)
  let st :=
    if updateFrequency ≤ st.batch.length then
      { st with batch := [], lastUpdateCount := st.count,
                trace := st.trace ++ ["pathfindingUpdate"] }
    else st
  if st.count = 1 then
    { st with trace := st.trace ++ ["log"] ++
        (getNeighbors u env.width env.height).map (fun _ => "log") }
  else st

/-- The outcome of one iteration of the search loop. -/
inductive StepResult where
  | next (st : SearchState)
  | exit (e : SearchExit)

/-- One iteration of the main search loop (src/worker.js:398-612): pop the
minimum entry, skip it if already visited, mark it visited, break on the
iteration cap, log, check progress, return the reconstructed path if the
target was popped, otherwise do the bookkeeping and relax the neighbours
(skipped entirely when `distances[u]` is `Infinity`, in which case no
relaxation test can succeed). -/
def searchStep (prune : Bool) (env : SearchEnv) (st : SearchState) : StepResult :=
  if st.pq.isEmpty then .exit (.queueEmpty st)
  else
    match dequeue st.pq with
    | none => .exit (.queueEmpty st)
    | some (u, pq') =>
      let st1 := { st with pq := pq' }
      if st1.visited u then .next { st1 with count := st1.count + 1 }
      else
        let st2 := markVisited st1 u
        if env.maxIterations < st2.count then .exit (.capBreak (addLog st2))
        else
          let st3 := stepLog st2
          let st4 := progressCheck env u st3
          if u = env.endIndex then
            .exit (.found (reconstructPath env st4).1 (foundWrap env st4))
          else
            let st5 := postProcess env u st4
            match st5.dist u with
            | none => .next st5
            | some uDist =>
              .next ((getNeighbors u env.width env.height).foldl
                (relaxStep prune env u uDist) st5)

/-- The main search loop (src/worker.js:398-612), one iteration per fuel
unit; `none` = fuel ran out (provably never happens with the canonical fuel).
The `await` yields of the source suspend without changing state and are not
modelled. -/
def searchLoop (prune : Bool) (env : SearchEnv) :
    ℕ → SearchState → Option SearchExit
  | 0, _ => none
  | fuel + 1, st =>
    match searchStep prune env st with
    | .exit e => some e
    | .next st' => searchLoop prune env fuel st'

/-- The canonical fuel: strictly more than the search measure
`|pq| + 9·(maxIterations + 2 − count)` can ever consume. -/
def searchFuel (env : SearchEnv) : ℕ := 9 * (env.maxIterations + 2) + 2

/-- The environment and initial state of a `findPath` call
(src/worker.js:339-396). -/
def searchEnvOf (width height : ℕ) (elevation : ℕ → ℚ) (roadUsage : ℕ → ℕ)
    (influence : ℕ → Option ℚ) (startCity endCity : City) : SearchEnv :=
  let startX := (jsRound startCity.x).toNat
  let startY := (jsRound startCity.y).toNat
  let endX := (jsRound endCity.x).toNat
  let endY := (jsRound endCity.y).toNat
  { width := width, height := height, elevation := elevation,
    roadUsage := roadUsage, influence := influence,
    startIndex := startY * width + startX,
    endIndex := endY * width + endX,
    endX := endX, endY := endY,
    sldSq := (((endX : ℤ) - startX) ^ 2 + ((endY : ℤ) - startY) ^ 2).toNat }

/-- The initial search state (src/worker.js:357-384): the queue holds the
start pixel at priority 0, its distance is 0, predecessors are 255, nothing is
visited, and three diagnostic log lines have been posted. -/
def initialSearchState (env : SearchEnv) : SearchState :=
  { pq := enqueue [] env.startIndex 0,
    dist := fun n => if n = env.startIndex then some 0 else none,
    pred := fun _ => 255,
    visited := fun _ => false,
    count := 0, processedCount := 0, visitedCount := 0,
    batch := [], lastUpdateCount := 0,
    bestDistSq := env.sldSq, lastProgressCheck := 0,
    trace := ["log", "log", "log"] }

/-- A complete `findPath` run (src/worker.js:339-624). -/
def findPathRun (prune : Bool) (width height : ℕ) (elevation : ℕ → ℚ)
    (roadUsage : ℕ → ℕ) (influence : ℕ → Option ℚ)
    (startCity endCity : City) : Option SearchExit :=
  let env := searchEnvOf width height elevation roadUsage influence startCity endCity
  searchLoop prune env (searchFuel env) (initialSearchState env)

/-- The value `findPath` returns: `some path` on success, `none` for the
`return null` paths (src/worker.js:483, 623).  The outer `Option` is fuel
exhaustion, provably impossible. -/
def findPathResult (prune : Bool) (width height : ℕ) (elevation : ℕ → ℚ)
    (roadUsage : ℕ → ℕ) (influence : ℕ → Option ℚ)
    (startCity endCity : City) : Option (Option (List ℕ)) :=
  match findPathRun prune width height elevation roadUsage influence startCity endCity with
  | none => none
  | some (.found p _) => some (some p)
  | some (.capBreak _) => some none
  | some (.queueEmpty _) => some none

/-- The tags of all messages `findPath` posts, in order; both failure exits
post the final `❌ No path found` log line (src/worker.js:619-622). -/
def findPathTrace (prune : Bool) (width height : ℕ) (elevation : ℕ → ℚ)
    (roadUsage : ℕ → ℕ) (influence : ℕ → Option ℚ)
    (startCity endCity : City) : List String :=
  match findPathRun prune width height elevation roadUsage influence startCity endCity with
  | none => []
  | some (.found _ st) => st.trace
  | some (.capBreak st) => st.trace ++ ["log"]
  | some (.queueEmpty st) => st.trace ++ ["log"]

/-- The elevation grid built by `createCostGrid` from a raster
(src/worker.js:141-158), one RGB triple per pixel index. -/
def elevationGridOf (pixels : ℕ → ℕ × ℕ × ℕ) : ℕ → ℚ :=
  fun idx => elevationOfPixel (pixels idx).1 (pixels idx).2.1 (pixels idx).2.2

/-- Which way a `findPath` run ended. -/
inductive ExitKind where
  | found
  | capBreak
  | queueEmpty
  | fuelOut
  deriving DecidableEq, Repr

/-- Classifies the exit of a `findPath` run. -/
def findPathExitKind (prune : Bool) (width height : ℕ) (elevation : ℕ → ℚ)
    (roadUsage : ℕ → ℕ) (influence : ℕ → Option ℚ)
    (startCity endCity : City) : ExitKind :=
  match findPathRun prune width height elevation roadUsage influence startCity endCity with
  | none => .fuelOut
  | some (.found _ _) => .found
  | some (.capBreak _) => .capBreak
  | some (.queueEmpty _) => .queueEmpty

/-- A settlement's rounded pixel lies on the grid. -/
def CityInRange (width height : ℕ) (c : City) : Prop :=
  0 ≤ jsRound c.x ∧ jsRound c.x < width ∧ 0 ≤ jsRound c.y ∧ jsRound c.y < height

instance (w h : ℕ) (c : City) : Decidable (CityInRange w h c) := by
  unfold CityInRange; infer_instance

/-- Concrete 3×3 terrain for the C2 counterexample: an all-land (grey) raster
with two elevation-50 mounds at pixels 4 and 7, the 255 summit at the target
pixel 8, and flat ground elsewhere.  The two mounds are each relaxed twice
(first over the expensive diagonal, then over the cheaper orthogonal route),
so their first queue entries are popped as duplicates; together with the 8
processed pixels that drives `count` to 10 > maxIterations = 9 at the pop of
the target. -/
def elevC2 : ℕ → ℕ := fun idx =>
  if idx = 4 then 50 else if idx = 7 then 50 else if idx = 8 then 255 else 0

/-- The raster pixels of the C2 grid (grey: r = g = b). -/
def pixelsC2 : ℕ → ℕ × ℕ × ℕ := fun idx => (elevC2 idx, elevC2 idx, elevC2 idx)

/-- Start settlement at pixel (0,0). -/
def cityS : City := ⟨"S", 1, 0, 0⟩

/-- End settlement at pixel (2,2). -/
def cityE : City := ⟨"E", 1, 2, 2⟩

/-- The proximity field of the C2 grid. -/
def influC2 : ℕ → Option ℚ := cityInfluenceGrid [cityS, cityE] 3 3

unseal Rat.add Rat.mul Rat.inv Rat.sub in
/-- C2 fails as stated: on the all-land (hence fully 8-connected) 3×3 grid
`elevC2` with in-range settlements at pixels 0 and 8, the search's iteration
cap fires (`count` reaches 10 > maxIterations = 9 because two pixels are
popped twice as stale duplicate queue entries) exactly at the pop of the
reachable target, and `findPath` gives up and reports NoPathFound (null). -/
theorem C2_counterexample :
    findPathResult true 3 3 (elevationGridOf pixelsC2) (fun _ => 0) influC2
      cityS cityE = some none ∧
    findPathExitKind true 3 3 (elevationGridOf pixelsC2) (fun _ => 0) influC2
      cityS cityE = .capBreak ∧
    (searchEnvOf 3 3 (elevationGridOf pixelsC2) (fun _ => 0) influC2
      cityS cityE).startIndex = 0 ∧
    (searchEnvOf 3 3 (elevationGridOf pixelsC2) (fun _ => 0) influC2
      cityS cityE).endIndex = 8 ∧
    chain8 3 3 [0, 4, 8] = true ∧
    CityInRange 3 3 cityS ∧ CityInRange 3 3 cityE := by decide

/-! ## Auxiliary lemmas about the heap operations -/

/-- Swapping the entries at two in-range positions preserves the members of a
list. -/
theorem mem_swap_iff {β : Type} (l : List β) (i j : ℕ) (a b : β)
    (ha : l.get? i = some a) (hb : l.get? j = some b) (x : β) :
    x ∈ (l.set i b).set j a ↔ x ∈ l := by
  obtain ⟨hi, -⟩ := List.get?_eq_some.mp ha
  obtain ⟨hj, -⟩ := List.get?_eq_some.mp hb
  by_cases hij : i = j
  · subst hij
    rw [ha] at hb
    obtain rfl := Option.some.inj hb
    rw [List.set_set]
    have hself : l.set i a = l := by
      apply List.ext_get?
      intro n
      by_cases hn : i = n
      · subst hn
        rw [List.get?_set_eq_of_lt a hi, ha]
      · rw [List.get?_set_ne a l hn]
    rw [hself]
  · constructor
    · intro hx
      obtain ⟨k, hk⟩ := List.mem_iff_get?.mp hx
      by_cases hkj : k = j
      · subst hkj
        rw [List.get?_set_eq_of_lt a (by simpa using hj)] at hk
        obtain rfl := Option.some.inj hk
        exact List.mem_iff_get?.mpr ⟨i, ha⟩
      · by_cases hki : k = i
        · subst hki
          rw [List.get?_set_ne a _ (fun h => hkj h.symm)] at hk
          rw [List.get?_set_eq_of_lt b hi] at hk
          obtain rfl := Option.some.inj hk
          exact List.mem_iff_get?.mpr ⟨j, hb⟩
        · rw [List.get?_set_ne a _ (fun h => hkj h.symm)] at hk
          rw [List.get?_set_ne b _ (fun h => hki h.symm)] at hk
          exact List.mem_iff_get?.mpr ⟨k, hk⟩
    · intro hx
      obtain ⟨k, hk⟩ := List.mem_iff_get?.mp hx
      by_cases hki : k = i
      · subst hki
        rw [ha] at hk
        obtain rfl := Option.some.inj hk
        refine List.mem_iff_get?.mpr ⟨j, ?_⟩
        rw [List.get?_set_eq_of_lt _ (by simpa using hj)]
      · by_cases hkj : k = j
        · subst hkj
          rw [hb] at hk
          obtain rfl := Option.some.inj hk
          refine List.mem_iff_get?.mpr ⟨i, ?_⟩
          rw [List.get?_set_ne a _ (fun h => hij h.symm)]
          rw [List.get?_set_eq_of_lt _ hi]
        · refine List.mem_iff_get?.mpr ⟨k, ?_⟩
          rw [List.get?_set_ne a _ (fun h => hkj h.symm)]
          rw [List.get?_set_ne b _ (fun h => hki h.symm)]
          exact hk

/-- `bubbleUpGo` preserves the length of the heap. -/
theorem bubbleUpGo_length {α : Type} :
    ∀ (fuel : ℕ) (heap : List (Entry α)) (n : ℕ),
      (bubbleUpGo fuel heap n).length = heap.length
  | 0, _, _ => rfl
  | fuel + 1, heap, n => by
    unfold bubbleUpGo
    split
    · rfl
    · dsimp only
      rcases hgn : heap.get? n with _ | element <;>
        rcases hgp : heap.get? ((n - 1) / 2) with _ | parent <;>
          simp only [hgn, hgp]
      split
      · rfl
      · rw [bubbleUpGo_length fuel]
        simp

/-- `bubbleUpGo` preserves the members of the heap. -/
theorem bubbleUpGo_mem {α : Type} :
    ∀ (fuel : ℕ) (heap : List (Entry α)) (n : ℕ) (x : Entry α),
      x ∈ bubbleUpGo fuel heap n ↔ x ∈ heap
  | 0, _, _, _ => Iff.rfl
  | fuel + 1, heap, n, x => by
    unfold bubbleUpGo
    split
    · exact Iff.rfl
    · dsimp only
      rcases hgn : heap.get? n with _ | element <;>
        rcases hgp : heap.get? ((n - 1) / 2) with _ | parent <;>
          simp only [hgn, hgp]
      split
      · exact Iff.rfl
      · rw [bubbleUpGo_mem fuel]
        exact mem_swap_iff heap _ n parent element hgp hgn x

/-- `sinkDownGo` preserves the length of the heap. -/
theorem sinkDownGo_length {α : Type} :
    ∀ (fuel : ℕ) (heap : List (Entry α)) (n : ℕ),
      (sinkDownGo fuel heap n).length = heap.length
  | 0, _, _ => rfl
  | fuel + 1, heap, n => by
    unfold sinkDownGo
    rcases hgn : heap.get? n with _ | element <;> simp only [hgn]
    rcases hsw : sinkSwap heap n element with _ | s <;> simp only [hsw]
    rcases hgs : heap.get? s with _ | hs <;> simp only [hgs]
    rw [sinkDownGo_length fuel]
    simp

/-- `sinkDownGo` preserves the members of the heap. -/
theorem sinkDownGo_mem {α : Type} :
    ∀ (fuel : ℕ) (heap : List (Entry α)) (n : ℕ) (x : Entry α),
      x ∈ sinkDownGo fuel heap n ↔ x ∈ heap
  | 0, _, _, _ => Iff.rfl
  | fuel + 1, heap, n, x => by
    unfold sinkDownGo
    rcases hgn : heap.get? n with _ | element <;> simp only [hgn]
    rcases hsw : sinkSwap heap n element with _ | s <;> simp only [hsw]
    rcases hgs : heap.get? s with _ | hs <;> simp only [hgs]
    rw [sinkDownGo_mem fuel]
    exact mem_swap_iff heap n s element hs hgn hgs x

/-- Members of `enqueue heap x p` are the old members plus the new entry. -/
theorem enqueue_mem {α : Type} (heap : List (Entry α)) (x : α) (p : ℚ)
    (e : Entry α) : e ∈ enqueue heap x p ↔ e ∈ heap ∨ e = ⟨x, p⟩ := by
  unfold enqueue bubbleUp
  rw [bubbleUpGo_mem]
  simp

/-- `enqueue` grows the heap by exactly one entry. -/
theorem enqueue_length {α : Type} (heap : List (Entry α)) (x : α) (p : ℚ) :
    (enqueue heap x p).length = heap.length + 1 := by
  unfold enqueue bubbleUp
  rw [bubbleUpGo_length]
  simp

/-- `dequeue` fails exactly on the empty heap. -/
theorem dequeue_none_iff {α : Type} (heap : List (Entry α)) :
    dequeue heap = none ↔ heap = [] := by
  cases heap with
  | nil => simp [dequeue]
  | cons mn rest =>
    cases rest with
    | nil => simp [dequeue]
    | cons b t =>
      rcases hl : (b :: t).getLast? with _ | last
      · simp at hl
      · simp [dequeue, hl]

/-- What `dequeue` returns: the root's element, and a heap whose members are
the old ones minus one copy of the root, with length one less. -/
theorem dequeue_spec {α : Type} (heap : List (Entry α)) (x : α)
    (pq' : List (Entry α)) (h : dequeue heap = some (x, pq')) :
    (∃ e ∈ heap, e.element = x) ∧
    (∀ e ∈ pq', e ∈ heap) ∧
    (∀ e ∈ heap, e.element = x ∨ e ∈ pq') ∧
    pq'.length + 1 = heap.length := by
  cases heap with
  | nil => exact absurd h (by simp [dequeue])
  | cons mn rest =>
    cases rest with
    | nil =>
      unfold dequeue at h
      obtain ⟨rfl, rfl⟩ := Prod.mk.injEq .. ▸ Option.some.inj h
      refine ⟨⟨mn, by simp, rfl⟩, by simp, ?_, by simp⟩
      intro e he
      simp at he
      subst he
      exact Or.inl rfl
    | cons b t =>
      rcases hl : (b :: t).getLast? with _ | last
      · simp at hl
      · simp only [dequeue, hl, Option.some.injEq, Prod.mk.injEq] at h
        obtain ⟨rfl, rfl⟩ := h
        have hlast_mem : last ∈ b :: t := List.mem_of_mem_getLast? hl
        have hsplit : (b :: t).dropLast ++ [last] = b :: t := by
          have hne : (b :: t) ≠ [] := by simp
          have hgl : (b :: t).getLast hne = last := by
            rw [List.getLast?_eq_getLast _ hne] at hl
            exact Option.some.inj hl
          rw [← hgl]
          exact List.dropLast_append_getLast hne
        refine ⟨⟨mn, by simp, rfl⟩, ?_, ?_, ?_⟩
        · intro e he
          unfold sinkDown at he
          rw [sinkDownGo_mem] at he
          rcases List.mem_cons.mp he with rfl | he'
          · exact List.mem_cons_of_mem _ hlast_mem
          · exact List.mem_cons_of_mem _ (List.dropLast_subset _ he')
        · intro e he
          rcases List.mem_cons.mp he with rfl | he'
          · exact Or.inl rfl
          · right
            unfold sinkDown
            rw [sinkDownGo_mem]
            rw [← hsplit] at he'
            rcases List.mem_append.mp he' with h1 | h2
            · exact List.mem_cons_of_mem _ h1
            · simp at h2
              subst h2
              exact List.mem_cons_self _ _
        · unfold sinkDown
          rw [sinkDownGo_length]
          simp

/-! ## Neighbourhood completeness, grid connectivity, direction decoding -/

/-- Two pixels with equal coordinates are the same index. -/
theorem index_eq_of_coords (w a b : ℕ) (hx : xOf a w = xOf b w)
    (hy : yOf a w = yOf b w) : a = b := by
  unfold xOf at hx
  unfold yOf at hy
  calc a = w * (a / w) + a % w := (Nat.div_add_mod a w).symm
  _ = w * (b / w) + b % w := by rw [hy, hx]
  _ = b := Nat.div_add_mod b w

/-- Every 8-adjacent pixel of `a` appears in `getNeighbors a`. -/
theorem getNeighbors_complete (w h a b : ℕ) (hadj : Adjacent8 w h a b) :
    ∃ nb ∈ getNeighbors a w h, nb.index = b := by
  obtain ⟨ha, hb, hne, hxd, hyd⟩ := hadj
  have hw : 0 < w := by
    rcases Nat.eq_zero_or_pos w with hz | hpos
    · subst hz; simp at ha
    · exact hpos
  have hxb : xOf b w < w := Nat.mod_lt _ hw
  have hyb : yOf b w < h := by
    unfold yOf
    exact Nat.div_lt_iff_lt_mul hw |>.mpr (by rw [Nat.mul_comm]; exact hb)
  set i : ℤ := (yOf b w : ℤ) - yOf a w with hi
  set j : ℤ := (xOf b w : ℤ) - xOf a w with hj
  have hiB : -1 ≤ i ∧ i ≤ 1 := by
    rw [abs_le] at hyd
    constructor <;> omega
  have hjB : -1 ≤ j ∧ j ≤ 1 := by
    rw [abs_le] at hxd
    constructor <;> omega
  have hnz : ¬(i = 0 ∧ j = 0) := by
    rintro ⟨h0, h1⟩
    apply hne
    apply index_eq_of_coords w a b
    · omega
    · omega
  have hijmem : (i, j) ∈ neighborOffsets := by
    simp only [neighborOffsets, List.mem_cons, List.mem_singleton, Prod.mk.injEq,
      Prod.ext_iff]
    omega
  have hcond : 0 ≤ (xOf a w : ℤ) + j ∧ (xOf a w : ℤ) + j < w ∧
      0 ≤ (yOf a w : ℤ) + i ∧ (yOf a w : ℤ) + i < h := by
    refine ⟨by omega, by omega, by omega, by omega⟩
  refine ⟨⟨((((yOf a w : ℤ) + i) * w + ((xOf a w : ℤ) + j)).toNat),
    decide (i ≠ 0) && decide (j ≠ 0), i, j⟩, ?_, ?_⟩
  · simp only [getNeighbors]
    refine List.mem_filterMap.mpr ⟨(i, j), hijmem, ?_⟩
    rw [if_pos hcond]
  · have hxx : (xOf a w : ℤ) + j = xOf b w := by omega
    have hyy : (yOf a w : ℤ) + i = yOf b w := by omega
    dsimp only
    rw [hxx, hyy]
    have : ((yOf b w : ℤ) * w + (xOf b w : ℤ)) = ((yOf b w * w + xOf b w : ℕ) : ℤ) := by
      push_cast
      ring
    rw [this, Int.toNat_ofNat]
    apply index_eq_of_coords w _ b
    · unfold xOf
      rw [Nat.add_comm, Nat.add_mul_mod_self_right]
      exact Nat.mod_mod_of_dvd b dvd_rfl
    · unfold yOf
      rw [Nat.add_comm, Nat.add_mul_div_right _ _ hw, Nat.div_eq_of_lt hxb]
      omega

/-- Any two in-range pixels are joined by an 8-connected chain (every grid is
connected because every pixel is traversable). -/
theorem grid_connected_aux (w h : ℕ) :
    ∀ (d : ℕ) (a b : ℕ), a < w * h → b < w * h →
      ((xOf a w : ℤ) - xOf b w).natAbs + ((yOf a w : ℤ) - yOf b w).natAbs ≤ d →
      ∃ l, l ≠ [] ∧ l.head? = some a ∧ l.getLast? = some b ∧
        chain8 w h l = true
  | 0, a, b, _, _, hd => by
    have hab : a = b := by
      apply index_eq_of_coords w a b <;> omega
    subst hab
    exact ⟨[a], by simp, rfl, rfl, rfl⟩
  | d + 1, a, b, ha, hb, hd => by
    by_cases heq : xOf a w = xOf b w ∧ yOf a w = yOf b w
    · have hab : a = b := index_eq_of_coords w a b heq.1 heq.2
      subst hab
      exact ⟨[a], by simp, rfl, rfl, rfl⟩
    · have hw : 0 < w := by
        rcases Nat.eq_zero_or_pos w with hz | hpos
        · subst hz; simp at ha
        · exact hpos
      have hxa : xOf a w < w := Nat.mod_lt _ hw
      have hxb : xOf b w < w := Nat.mod_lt _ hw
      have hya : yOf a w < h := by
        unfold yOf
        exact Nat.div_lt_iff_lt_mul hw |>.mpr (by rw [Nat.mul_comm]; exact ha)
      have hyb : yOf b w < h := by
        unfold yOf
        exact Nat.div_lt_iff_lt_mul hw |>.mpr (by rw [Nat.mul_comm]; exact hb)
      obtain ⟨sx, hsxv⟩ : ∃ sx : ℤ,
          ((xOf a w : ℤ) < xOf b w ∧ sx = 1) ∨
          ((xOf b w : ℤ) < xOf a w ∧ sx = -1) ∨
          ((xOf a w : ℤ) = xOf b w ∧ sx = 0) := by
        by_cases hlt : (xOf a w : ℤ) < xOf b w
        · exact ⟨1, Or.inl ⟨hlt, rfl⟩⟩
        · by_cases hgt : (xOf b w : ℤ) < xOf a w
          · exact ⟨-1, Or.inr (Or.inl ⟨hgt, rfl⟩)⟩
          · exact ⟨0, Or.inr (Or.inr ⟨by omega, rfl⟩)⟩
      obtain ⟨sy, hsyv⟩ : ∃ sy : ℤ,
          ((yOf a w : ℤ) < yOf b w ∧ sy = 1) ∨
          ((yOf b w : ℤ) < yOf a w ∧ sy = -1) ∨
          ((yOf a w : ℤ) = yOf b w ∧ sy = 0) := by
        by_cases hlt : (yOf a w : ℤ) < yOf b w
        · exact ⟨1, Or.inl ⟨hlt, rfl⟩⟩
        · by_cases hgt : (yOf b w : ℤ) < yOf a w
          · exact ⟨-1, Or.inr (Or.inl ⟨hgt, rfl⟩)⟩
          · exact ⟨0, Or.inr (Or.inr ⟨by omega, rfl⟩)⟩
      have hxbnds : 0 ≤ (xOf a w : ℤ) + sx ∧ (xOf a w : ℤ) + sx < w := by omega
      have hybnds : 0 ≤ (yOf a w : ℤ) + sy ∧ (yOf a w : ℤ) + sy < h := by omega
      obtain ⟨hrange, hxeq, hyeq⟩ :=
        coords_of_flat w h ((xOf a w : ℤ) + sx) ((yOf a w : ℤ) + sy)
          hxbnds.1 hxbnds.2 hybnds.1 hybnds.2
      have hnz : ¬(sx = 0 ∧ sy = 0) := by
        rintro ⟨h0, h1⟩
        exact heq ⟨by omega, by omega⟩
      have hd' : ((xOf ((((yOf a w : ℤ) + sy) * w + ((xOf a w : ℤ) + sx)).toNat) w : ℤ)
            - xOf b w).natAbs +
          ((yOf ((((yOf a w : ℤ) + sy) * w + ((xOf a w : ℤ) + sx)).toNat) w : ℤ)
            - yOf b w).natAbs ≤ d := by
        rw [hxeq, hyeq]
        omega
      have hadj : Adjacent8 w h a ((((yOf a w : ℤ) + sy) * w + ((xOf a w : ℤ) + sx)).toNat) := by
        refine ⟨ha, hrange, ?_, ?_, ?_⟩
        · intro hc
          rw [← hc] at hxeq hyeq
          exact hnz ⟨by omega, by omega⟩
        · rw [abs_le, hxeq]
          constructor <;> omega
        · rw [abs_le, hyeq]
          constructor <;> omega
      obtain ⟨l, hlne, hlhead, hllast, hlchain⟩ :=
        grid_connected_aux w h d
          ((((yOf a w : ℤ) + sy) * w + ((xOf a w : ℤ) + sx)).toNat) b hrange hb hd'
      refine ⟨a :: l, by simp, rfl, ?_, ?_⟩
      · rw [← hllast]
        cases l with
        | nil => exact absurd rfl hlne
        | cons c cs => exact List.getLast?_cons_cons
      · cases l with
        | nil => exact absurd rfl hlne
        | cons c cs =>
          obtain rfl : c = ((((yOf a w : ℤ) + sy) * w + ((xOf a w : ℤ) + sx)).toNat) := by
            simpa using hlhead
          simp only [chain8, Bool.and_eq_true, decide_eq_true_eq]
          exact ⟨hadj, hlchain⟩

/-- Any two in-range pixels are joined by an 8-connected chain. -/
theorem grid_connected (w h a b : ℕ) (ha : a < w * h) (hb : b < w * h) :
    ∃ l, l ≠ [] ∧ l.head? = some a ∧ l.getLast? = some b ∧
      chain8 w h l = true :=
  grid_connected_aux w h
    (((xOf a w : ℤ) - xOf b w).natAbs + ((yOf a w : ℤ) - yOf b w).natAbs)
    a b ha hb le_rfl

/-- A pixel has at most 8 neighbours. -/
theorem getNeighbors_length_le (u w h : ℕ) :
    (getNeighbors u w h).length ≤ 8 := by
  simp only [getNeighbors]
  exact List.length_filterMap_le _ _

/-- Decoding the direction code stored at a relaxed neighbour recovers the
relaxing pixel, exactly as the reconstruction loop computes it
(src/worker.js:456-463). -/
theorem directionCode_decode (u width height : ℕ) (hu : u < width * height)
    (nb : Neighbor) (hnb : nb ∈ getNeighbors u width height) :
    directionCode nb ≠ 255 ∧
    (((yOf nb.index width : ℤ) + (((directionCode nb / 3 : ℕ) : ℤ) - 1)) * width +
      ((xOf nb.index width : ℤ) + (((directionCode nb % 3 : ℕ) : ℤ) - 1))).toNat = u := by
  obtain ⟨hadj, hxeq, hyeq, -, -, hoff⟩ := getNeighbors_sound u width height hu nb hnb
  obtain ⟨hi1, hi2, hj1, hj2, -⟩ := hoff
  have hcode : directionCode nb = ((-nb.i + 1) * 3 + (-nb.j + 1)).toNat := rfl
  have hcodeval : (directionCode nb : ℤ) = (-nb.i + 1) * 3 + (-nb.j + 1) := by
    rw [hcode]
    omega
  have hmod : ((directionCode nb % 3 : ℕ) : ℤ) = -nb.j + 1 := by omega
  have hdiv : ((directionCode nb / 3 : ℕ) : ℤ) = -nb.i + 1 := by omega
  constructor
  · intro hc
    rw [hcode] at hc
    omega
  · rw [hmod, hdiv]
    have hx : (xOf nb.index width : ℤ) + (-nb.j + 1 - 1) = xOf u width := by
      rw [hxeq]; ring
    have hy : (yOf nb.index width : ℤ) + (-nb.i + 1 - 1) = yOf u width := by
      rw [hyeq]; ring
    rw [hx, hy]
    have hcast : ((yOf u width : ℤ) * width + (xOf u width : ℤ)) =
        ((yOf u width * width + xOf u width : ℕ) : ℤ) := by
      push_cast
      ring
    rw [hcast, Int.toNat_ofNat]
    unfold xOf yOf
    rw [Nat.mul_comm (u / width) width]
    exact Nat.div_add_mod u width

/-! ## Invariants of the search loop -/

/-- The predecessor data recorded for a finite, non-start pixel: a strictly
closer, visited, adjacent pixel that the stored direction code decodes to
(matching the arithmetic of the reconstruction loop, src/worker.js:456-463). -/
def PredWitness (env : SearchEnv) (st : SearchState) (v : ℕ) (d : ℚ) : Prop :=
  ∃ q dq, st.dist q = some dq ∧ dq < d ∧ st.visited q = true ∧
    Adjacent8 env.width env.height q v ∧ st.pred v ≠ 255 ∧
    (((yOf v env.width : ℤ) + (((st.pred v / 3 : ℕ) : ℤ) - 1)) * env.width +
      ((xOf v env.width : ℤ) + (((st.pred v % 3 : ℕ) : ℤ) - 1))).toNat = q

/-- The invariant carried through the neighbour-relaxation fold: everything
of `SInv` that does not mention closure, plus the facts that the relaxing
pixel `u` keeps its distance and stays visited. -/
def RelaxPre (env : SearchEnv) (u : ℕ) (uDist : ℚ) (st : SearchState) : Prop :=
  (∀ v d, st.dist v = some d → v < env.width * env.height ∧ 0 ≤ d) ∧
  st.dist env.startIndex = some 0 ∧
  (∀ e ∈ st.pq, (st.dist e.element).isSome = true) ∧
  (∀ v, st.visited v = true → (st.dist v).isSome = true) ∧
  (∀ v, (st.dist v).isSome = true →
    st.visited v = true ∨ ∃ e ∈ st.pq, e.element = v) ∧
  (∀ v d, st.dist v = some d → v ≠ env.startIndex → PredWitness env st v d) ∧
  st.dist u = some uDist ∧ st.visited u = true

/-- Everything one neighbour-relaxation step (src/worker.js:532-611) does to
the search state: the invariant survives, the neighbour ends up with a finite
distance, finite distances and visited flags are stable, distances of visited
pixels are untouched, and the queue grows by at most one entry. -/
theorem relaxStep_spec (prune : Bool) (env : SearchEnv) (u : ℕ) (uDist : ℚ)
    (st : SearchState) (nb : Neighbor)
    (hnb : nb ∈ getNeighbors u env.width env.height)
    (hpre : RelaxPre env u uDist st) :
    RelaxPre env u uDist (relaxStep prune env u uDist st nb) ∧
    ((relaxStep prune env u uDist st nb).dist nb.index).isSome = true ∧
    (∀ v, (st.dist v).isSome = true →
      ((relaxStep prune env u uDist st nb).dist v).isSome = true) ∧
    ((relaxStep prune env u uDist st nb).visited = st.visited) ∧
    (∀ v, st.visited v = true →
      (relaxStep prune env u uDist st nb).dist v = st.dist v) ∧
    (relaxStep prune env u uDist st nb).pq.length ≤ st.pq.length + 1 := by
  obtain ⟨hrange, hstart, hpq, hvd, hfin, hpw, hud, huv⟩ := hpre
  have huN : u < env.width * env.height := (hrange u uDist hud).1
  have hu0 : 0 ≤ uDist := (hrange u uDist hud).2
  obtain ⟨hadj, -, -, -, -, -⟩ := getNeighbors_sound u env.width env.height huN nb hnb
  have hmc : 0 < moveCostOf env u nb := moveCost_pos _ _ _ _ _
  unfold relaxStep
  by_cases hvis : st.visited nb.index = true
  · rw [if_pos hvis]
    exact ⟨⟨hrange, hstart, hpq, hvd, hfin, hpw, hud, huv⟩, hvd _ hvis,
      fun v h => h, rfl, fun v _ => rfl, by omega⟩
  · rw [if_neg hvis]
    dsimp only
    by_cases hprn : (prune &&
        (match st.dist nb.index with
         | some dv => decide (80 ≤ moveCostOf env u nb) &&
             decide (dv * (105 / 100) < uDist + moveCostOf env u nb)
         | none => false)) = true
    · rw [if_pos hprn]
      have hsome : (st.dist nb.index).isSome = true := by
        rcases hd : st.dist nb.index with _ | dv
        · rw [hd] at hprn
          simp at hprn
        · rfl
      exact ⟨⟨hrange, hstart, hpq, hvd, hfin, hpw, hud, huv⟩, hsome,
        fun v h => h, rfl, fun v _ => rfl, by omega⟩
    · rw [if_neg hprn]
      by_cases hrel : (match st.dist nb.index with
          | some dv => decide (uDist + moveCostOf env u nb < dv)
          | none => true) = true
      · rw [if_pos hrel]
        have hvne : u ≠ nb.index := hadj.2.2.1
        have hvstart : nb.index ≠ env.startIndex := by
          intro hc
          rw [hc] at hrel
          rw [hstart] at hrel
          simp only [decide_eq_true_eq] at hrel
          linarith
        obtain ⟨hcode255, hdecode⟩ :=
          directionCode_decode u env.width env.height huN nb hnb
        have hsne : env.startIndex ≠ nb.index := fun h => hvstart h.symm
        have hune : u ≠ nb.index := hvne
        refine ⟨⟨?_, ?_, ?_, ?_, ?_, ?_, ?_, huv⟩, ?_, ?_, rfl, ?_, ?_⟩
        · intro v d hv
          simp only at hv
          by_cases hveq : v = nb.index
          · rw [if_pos hveq] at hv
            obtain rfl := Option.some.inj hv
            exact ⟨hveq ▸ hadj.2.1, by linarith⟩
          · rw [if_neg hveq] at hv
            exact hrange v d hv
        · simp only [hsne, if_false]
          exact hstart
        · intro e he
          rw [enqueue_mem] at he
          simp only
          rcases he with he | rfl
          · by_cases hveq : e.element = nb.index
            · rw [if_pos hveq]; rfl
            · rw [if_neg hveq]
              exact hpq e he
          · rw [if_pos rfl]; rfl
        · intro v hv
          simp only
          by_cases hveq : v = nb.index
          · rw [if_pos hveq]; rfl
          · rw [if_neg hveq]
            exact hvd v hv
        · intro v hv
          simp only at hv ⊢
          by_cases hveq : v = nb.index
          · right
            exact ⟨⟨nb.index, uDist + moveCostOf env u nb⟩,
              (enqueue_mem _ _ _ _).mpr (Or.inr rfl), hveq.symm⟩
          · rw [if_neg hveq] at hv
            rcases hfin v hv with h | ⟨e, he, hee⟩
            · exact Or.inl h
            · exact Or.inr ⟨e, (enqueue_mem _ _ _ _).mpr (Or.inl he), hee⟩
        · intro v d hv hvs
          simp only at hv ⊢
          by_cases hveq : v = nb.index
          · subst hveq
            rw [if_pos rfl] at hv
            obtain rfl := Option.some.inj hv
            unfold PredWitness
            simp only
            refine ⟨u, uDist, ?_, by linarith, huv, hadj, ?_, ?_⟩
            · rw [if_neg hune]
              exact hud
            · rw [if_true]
              exact hcode255
            · rw [if_true]
              exact hdecode
          · rw [if_neg hveq] at hv
            obtain ⟨q, dq, hq, hlt, hqv, hqadj, hp255, hpdec⟩ := hpw v d hv hvs
            have hqne : q ≠ nb.index := by
              intro hc
              rw [hc] at hqv
              exact hvis hqv
            unfold PredWitness
            simp only
            refine ⟨q, dq, ?_, hlt, hqv, hqadj, ?_, ?_⟩
            · rw [if_neg hqne]
              exact hq
            · rw [if_neg hveq]
              exact hp255
            · rw [if_neg hveq]
              exact hpdec
        · simp only
          rw [if_neg hune]
          exact hud
        · simp only
          rw [if_true]
          rfl
        · intro v hv
          simp only
          by_cases hveq : v = nb.index
          · rw [if_pos hveq]; rfl
          · rw [if_neg hveq]
            exact hv
        · intro v hv
          have hne : v ≠ nb.index := fun hc => hvis (hc ▸ hv)
          simp only
          rw [if_neg hne]
        · simp only
          rw [enqueue_length]
      · rw [if_neg hrel]
        have hsome : (st.dist nb.index).isSome = true := by
          rcases hd : st.dist nb.index with _ | dv
          · rw [hd] at hrel
            simp at hrel
          · rfl
        exact ⟨⟨hrange, hstart, hpq, hvd, hfin, hpw, hud, huv⟩, hsome,
          fun v h => h, rfl, fun v _ => rfl, by omega⟩

/-- Folding one relaxation step over any sublist of the neighbour list keeps
the invariant, gives every processed neighbour a finite distance, preserves
finiteness and visited flags, leaves visited pixels' distances alone, and
grows the queue by at most the list length. -/
theorem relaxFold_spec (prune : Bool) (env : SearchEnv) (u : ℕ) (uDist : ℚ)
    (l : List Neighbor)
    (hl : ∀ nb ∈ l, nb ∈ getNeighbors u env.width env.height)
    (st : SearchState) (hpre : RelaxPre env u uDist st) :
    RelaxPre env u uDist (l.foldl (relaxStep prune env u uDist) st) ∧
    (∀ nb ∈ l,
      ((l.foldl (relaxStep prune env u uDist) st).dist nb.index).isSome = true) ∧
    (∀ v, (st.dist v).isSome = true →
      ((l.foldl (relaxStep prune env u uDist) st).dist v).isSome = true) ∧
    ((l.foldl (relaxStep prune env u uDist) st).visited = st.visited) ∧
    (∀ v, st.visited v = true →
      (l.foldl (relaxStep prune env u uDist) st).dist v = st.dist v) ∧
    (l.foldl (relaxStep prune env u uDist) st).pq.length ≤
      st.pq.length + l.length := by
  induction l generalizing st with
  | nil =>
    simp only [List.foldl_nil, List.length_nil]
    exact ⟨hpre, fun nb h => absurd h (List.not_mem_nil nb),
      fun v h => h, trivial, fun v _ => trivial, by omega⟩
  | cons nb tl ih =>
    have hnb : nb ∈ getNeighbors u env.width env.height :=
      hl nb (List.mem_cons_self nb tl)
    obtain ⟨hpre1, hsome1, hmono1, hvis1, hkeep1, hlen1⟩ :=
      relaxStep_spec prune env u uDist st nb hnb hpre
    obtain ⟨hpre2, hsome2, hmono2, hvis2, hkeep2, hlen2⟩ :=
      ih (fun x hx => hl x (List.mem_cons_of_mem nb hx)) _ hpre1
    rw [List.foldl_cons]
    refine ⟨hpre2, ?_, ?_, ?_, ?_, ?_⟩
    · intro x hx
      rcases List.mem_cons.mp hx with rfl | hx
      · exact hmono2 _ hsome1
      · exact hsome2 x hx
    · intro v hv
      exact hmono2 v (hmono1 v hv)
    · rw [hvis2, hvis1]
    · intro v hv
      have hv1 : (relaxStep prune env u uDist st nb).visited v = true := by
        rw [hvis1]; exact hv
      rw [hkeep2 v hv1, hkeep1 v hv]
    · calc (tl.foldl (relaxStep prune env u uDist)
            (relaxStep prune env u uDist st nb)).pq.length
          ≤ (relaxStep prune env u uDist st nb).pq.length + tl.length := hlen2
        _ ≤ st.pq.length + 1 + tl.length := by omega
        _ = st.pq.length + (nb :: tl).length := by
            simp [List.length_cons]; omega

/-- The invariant of the main search loop, holding before every iteration:
finite distances are in range and non-negative, the start pixel has distance
0, queue entries and visited pixels have finite distances, finite pixels are
visited or queued, non-start finite pixels carry a valid predecessor record,
every neighbour of a visited pixel has a finite distance, and the end pixel
is not yet visited. -/
def SInv (env : SearchEnv) (st : SearchState) : Prop :=
  (∀ v d, st.dist v = some d → v < env.width * env.height ∧ 0 ≤ d) ∧
  st.dist env.startIndex = some 0 ∧
  (∀ e ∈ st.pq, (st.dist e.element).isSome = true) ∧
  (∀ v, st.visited v = true → (st.dist v).isSome = true) ∧
  (∀ v, (st.dist v).isSome = true →
    st.visited v = true ∨ ∃ e ∈ st.pq, e.element = v) ∧
  (∀ v d, st.dist v = some d → v ≠ env.startIndex → PredWitness env st v d) ∧
  (∀ u, st.visited u = true →
    ∀ nb ∈ getNeighbors u env.width env.height,
      (st.dist nb.index).isSome = true) ∧
  st.visited env.endIndex = false

/-- The termination measure of the search loop: every iteration either
shortens the queue without relaxation or pays one unit of the iteration
budget against at most eight new queue entries. -/
def searchMeasure (env : SearchEnv) (st : SearchState) : ℕ :=
  st.pq.length + 9 * (env.maxIterations + 2 - st.count)

/-- `stepLog` only appends to the trace. -/
theorem stepLog_core (st : SearchState) :
    (stepLog st).pq = st.pq ∧ (stepLog st).dist = st.dist ∧
    (stepLog st).pred = st.pred ∧ (stepLog st).visited = st.visited ∧
    (stepLog st).count = st.count ∧ (stepLog st).batch = st.batch ∧
    (stepLog st).processedCount = st.processedCount := by
  unfold stepLog addLog
  split <;> exact ⟨rfl, rfl, rfl, rfl, rfl, rfl, rfl⟩

/-- `progressCheck` only touches `bestDistSq`, `lastProgressCheck` and the
trace. -/
theorem progressCheck_core (env : SearchEnv) (u : ℕ) (st : SearchState) :
    (progressCheck env u st).pq = st.pq ∧
    (progressCheck env u st).dist = st.dist ∧
    (progressCheck env u st).pred = st.pred ∧
    (progressCheck env u st).visited = st.visited ∧
    (progressCheck env u st).count = st.count ∧
    (progressCheck env u st).batch = st.batch ∧
    (progressCheck env u st).processedCount = st.processedCount := by
  unfold progressCheck
  refine ⟨?_, ?_, ?_, ?_, ?_, ?_, ?_⟩ <;>
    (split
     · dsimp only
       split <;> rfl
     · rfl)

/-- `postProcess` bumps `count` and `processedCount` by one and leaves the
queue, distances, predecessors and visited flags alone. -/
theorem postProcess_core (env : SearchEnv) (u : ℕ) (st : SearchState) :
    (postProcess env u st).pq = st.pq ∧
    (postProcess env u st).dist = st.dist ∧
    (postProcess env u st).pred = st.pred ∧
    (postProcess env u st).visited = st.visited ∧
    (postProcess env u st).count = st.count + 1 := by
  unfold postProcess
  refine ⟨?_, ?_, ?_, ?_, ?_⟩ <;>
    (dsimp only
     (repeat' split) <;> rfl)

/-- The number of grid pixels whose recorded distance is finite and strictly
below `d`: the reconstruction walk's termination measure. -/
def distBelow (env : SearchEnv) (st : SearchState) (d : ℚ) : ℕ :=
  ((Finset.range (env.width * env.height)).filter
    (fun p => ((st.dist p).map (fun dp => decide (dp < d))).getD false = true)).card

/-- The measure is bounded by the grid size. -/
theorem distBelow_le (env : SearchEnv) (st : SearchState) (d : ℚ) :
    distBelow env st d ≤ env.width * env.height := by
  unfold distBelow
  calc _ ≤ (Finset.range (env.width * env.height)).card :=
        Finset.card_filter_le _ _
    _ = env.width * env.height := Finset.card_range _

/-- Stepping to a strictly closer pixel strictly shrinks the measure. -/
theorem distBelow_lt (env : SearchEnv) (st : SearchState) (d dq : ℚ) (q : ℕ)
    (hq : st.dist q = some dq) (hlt : dq < d) (hqN : q < env.width * env.height) :
    distBelow env st dq < distBelow env st d := by
  unfold distBelow
  apply Finset.card_lt_card
  constructor
  · intro p hp
    simp only [Finset.mem_filter, Finset.mem_range] at hp ⊢
    obtain ⟨hpr, hpd⟩ := hp
    refine ⟨hpr, ?_⟩
    rcases hd : st.dist p with _ | dp
    · rw [hd] at hpd
      simp at hpd
    · rw [hd] at hpd
      simp only [Option.map_some', Option.getD_some, decide_eq_true_eq] at hpd
      simp only [Option.map_some', Option.getD_some, decide_eq_true_eq]
      linarith
  · intro hsub
    have hq1 : q ∈ (Finset.range (env.width * env.height)).filter
        (fun p => ((st.dist p).map (fun dp => decide (dp < d))).getD false = true) := by
      simp only [Finset.mem_filter, Finset.mem_range]
      exact ⟨hqN, by rw [hq]; simp [hlt]⟩
    have hq2 := hsub hq1
    simp only [Finset.mem_filter, Finset.mem_range, hq] at hq2
    simp at hq2

/-- The reconstruction loop (src/worker.js:444-464) run from any pixel with a
finite recorded distance, in a state whose predecessor records are valid,
terminates without hitting the 255 error code and produces an 8-connected
chain from the start pixel down to that pixel. -/
theorem reconGo_reaches (env : SearchEnv) (st : SearchState)
    (hrange : ∀ v d, st.dist v = some d → v < env.width * env.height ∧ 0 ≤ d)
    (hpw : ∀ v d, st.dist v = some d → v ≠ env.startIndex → PredWitness env st v d) :
    ∀ (n : ℕ) (v : ℕ) (d : ℚ) (acc : List ℕ), st.dist v = some d →
      distBelow env st d < n →
      chain8 env.width env.height (v :: acc) = true →
      ∃ l, reconGo env st n v acc = (l ++ v :: acc, false) ∧
        chain8 env.width env.height (l ++ v :: acc) = true ∧
        (l ++ v :: acc).head? = some env.startIndex := by
  intro n
  induction n with
  | zero =>
    intro v d acc _ hfuel _
    exact absurd hfuel (Nat.not_lt_zero _)
  | succ n ih =>
    intro v d acc hv hfuel hchain
    by_cases hvs : v = env.startIndex
    · refine ⟨[], ?_, hchain, ?_⟩
      · show reconGo env st (n + 1) v acc = (v :: acc, false)
        unfold reconGo
        rw [if_pos hvs]
      · simp [hvs]
    · obtain ⟨q, dq, hq, hlt, hqv, hqadj, hp255, hpdec⟩ := hpw v d hv hvs
      have hvN : v < env.width * env.height := (hrange v d hv).1
      have hqN : q < env.width * env.height := (hrange q dq hq).1
      have hchain2 : chain8 env.width env.height (q :: v :: acc) = true := by
        simp only [chain8, Bool.and_eq_true, decide_eq_true_eq]
        exact ⟨hqadj, hchain⟩
      have hfuel2 : distBelow env st dq < n := by
        have := distBelow_lt env st d dq q hq hlt hqN
        omega
      obtain ⟨l, hrec, hch, hhd⟩ := ih q dq (v :: acc) hq hfuel2 hchain2
      refine ⟨l ++ [q], ?_, ?_, ?_⟩
      · show reconGo env st (n + 1) v acc = (l ++ [q] ++ v :: acc, false)
        unfold reconGo
        rw [if_neg hvs, if_neg hp255]
        dsimp only
        rw [hpdec, hrec]
        rw [List.append_assoc]
        rfl
      · rw [List.append_assoc]
        exact hch
      · rw [List.append_assoc]
        exact hhd

/-- Relaxation never touches the iteration counter. -/
theorem relaxStep_count (prune : Bool) (env : SearchEnv) (u : ℕ) (uDist : ℚ)
    (st : SearchState) (nb : Neighbor) :
    (relaxStep prune env u uDist st nb).count = st.count := by
  unfold relaxStep
  dsimp only
  (repeat' split) <;> rfl

/-- Neither does the whole relaxation fold. -/
theorem relaxFold_count (prune : Bool) (env : SearchEnv) (u : ℕ) (uDist : ℚ)
    (l : List Neighbor) (st : SearchState) :
    (l.foldl (relaxStep prune env u uDist) st).count = st.count := by
  induction l generalizing st with
  | nil => rfl
  | cons nb tl ih =>
    rw [List.foldl_cons, ih, relaxStep_count]

/-- One search iteration that continues preserves the loop invariant and
strictly decreases the termination measure. -/
theorem searchStep_next (prune : Bool) (env : SearchEnv) (st st' : SearchState)
    (hinv : SInv env st)
    (h : searchStep prune env st = .next st') :
    SInv env st' ∧ searchMeasure env st' < searchMeasure env st := by
  obtain ⟨hrange, hstart, hpq, hvd, hfin, hpw, hclo, hend⟩ := hinv
  unfold searchStep at h
  by_cases hemp : st.pq.isEmpty
  · rw [if_pos hemp] at h
    exact absurd h (by simp)
  rw [if_neg hemp] at h
  rcases hdq : dequeue st.pq with _ | ⟨u, pq'⟩
  · rw [hdq] at h
    exact absurd h (by simp)
  rw [hdq] at h
  dsimp only at h
  obtain ⟨⟨e0, he0, he0e⟩, hsub, hcover, hlen⟩ := dequeue_spec st.pq u pq' hdq
  have husome : (st.dist u).isSome = true := he0e ▸ hpq e0 he0
  by_cases hvisu : st.visited u = true
  · rw [if_pos hvisu] at h
    rw [StepResult.next.injEq] at h
    subst h
    refine ⟨⟨hrange, hstart, ?_, hvd, ?_, fun v d hv hne => hpw v d hv hne,
      hclo, hend⟩, ?_⟩
    · intro e he
      exact hpq e (hsub e he)
    · intro v hsv
      rcases hfin v hsv with hv | ⟨e, he, hee⟩
      · exact Or.inl hv
      · rcases hcover e he with heu | hep
        · exact Or.inl (by rw [← hee, heu]; exact hvisu)
        · exact Or.inr ⟨e, hep, hee⟩
    · unfold searchMeasure
      dsimp only
      omega
  rw [if_neg hvisu] at h
  set st2 := markVisited { st with pq := pq' } u with hst2
  by_cases hcap : env.maxIterations < st2.count
  · rw [if_pos hcap] at h
    exact absurd h (by simp)
  rw [if_neg hcap] at h
  by_cases huend : u = env.endIndex
  · rw [if_pos huend] at h
    exact absurd h (by simp)
  rw [if_neg huend] at h
  set st3 := stepLog st2 with hst3
  set st4 := progressCheck env u st3 with hst4
  set st5 := postProcess env u st4 with hst5
  obtain ⟨c3pq, c3dist, c3pred, c3vis, c3cnt, -, -⟩ := stepLog_core st2
  obtain ⟨c4pq, c4dist, c4pred, c4vis, c4cnt, -, -⟩ := progressCheck_core env u st3
  obtain ⟨c5pq, c5dist, c5pred, c5vis, c5cnt⟩ := postProcess_core env u st4
  rw [← hst3] at c3pq c3dist c3pred c3vis c3cnt
  rw [← hst4] at c4pq c4dist c4pred c4vis c4cnt
  rw [← hst5] at c5pq c5dist c5pred c5vis c5cnt
  have h2dist : st2.dist = st.dist := rfl
  have h2pq : st2.pq = pq' := rfl
  have h2pred : st2.pred = st.pred := rfl
  have h2cnt : st2.count = st.count := rfl
  have h2vis : st2.visited = fun n => if n = u then true else st.visited n := rfl
  have hd5 : st5.dist = st.dist := by rw [c5dist, c4dist, c3dist, h2dist]
  have hq5 : st5.pq = pq' := by rw [c5pq, c4pq, c3pq, h2pq]
  have hp5 : st5.pred = st.pred := by rw [c5pred, c4pred, c3pred, h2pred]
  have hv5 : st5.visited = fun n => if n = u then true else st.visited n := by
    rw [c5vis, c4vis, c3vis, h2vis]
  have hc5 : st5.count = st.count + 1 := by rw [c5cnt, c4cnt, c3cnt, h2cnt]
  rcases Option.isSome_iff_exists.mp husome with ⟨uDist, hud⟩
  have hd5u : st5.dist u = some uDist := by rw [hd5]; exact hud
  rw [hd5u] at h
  dsimp only at h
  rw [StepResult.next.injEq] at h
  subst h
  have hpre5 : RelaxPre env u uDist st5 := by
    refine ⟨?_, ?_, ?_, ?_, ?_, ?_, hd5u, ?_⟩
    · rw [hd5]; exact hrange
    · rw [hd5]; exact hstart
    · intro e he
      rw [hd5]
      exact hpq e (hsub e (hq5 ▸ he))
    · intro v hv
      rw [hv5] at hv
      dsimp only at hv
      rw [hd5]
      by_cases hvu : v = u
      · rw [hvu]; exact husome
      · rw [if_neg hvu] at hv
        exact hvd v hv
    · intro v hsv
      rw [hd5] at hsv
      rw [hv5, hq5]
      rcases hfin v hsv with hv | ⟨e, he, hee⟩
      · left
        dsimp only
        by_cases hvu : v = u
        · rw [if_pos hvu]
        · rw [if_neg hvu]; exact hv
      · rcases hcover e he with heu | hep
        · left
          dsimp only
          rw [if_pos (by rw [← hee, heu])]
        · exact Or.inr ⟨e, hep, hee⟩
    · intro v d hv hne
      rw [hd5] at hv
      obtain ⟨q, dq, hq, hlt, hqv, hqadj, hp255, hpdec⟩ := hpw v d hv hne
      unfold PredWitness
      rw [hd5, hp5, hv5]
      refine ⟨q, dq, hq, hlt, ?_, hqadj, hp255, hpdec⟩
      dsimp only
      by_cases hqu : q = u
      · rw [if_pos hqu]
      · rw [if_neg hqu]; exact hqv
    · rw [hv5]
      dsimp only
      rw [if_pos rfl]
  obtain ⟨hpreF, hsomeF, hmonoF, hvisF, hkeepF, hlenF⟩ :=
    relaxFold_spec prune env u uDist (getNeighbors u env.width env.height)
      (fun nb hnb => hnb) st5 hpre5
  obtain ⟨hrF, hsF, hpqF, hvdF, hfinF, hpwF, hudF, huvF⟩ := hpreF
  constructor
  · refine ⟨hrF, hsF, hpqF, hvdF, hfinF, hpwF, ?_, ?_⟩
    · intro u' hu' nb hnb
      rw [hvisF, hv5] at hu'
      dsimp only at hu'
      by_cases hu'u : u' = u
      · subst hu'u
        exact hsomeF nb hnb
      · rw [if_neg hu'u] at hu'
        apply hmonoF
        rw [hd5]
        exact hclo u' hu' nb hnb
    · rw [hvisF, hv5]
      dsimp only
      rw [if_neg (fun hc => huend hc.symm)]
      exact hend
  · have hcF : ((getNeighbors u env.width env.height).foldl
        (relaxStep prune env u uDist) st5).count = st.count + 1 := by
      rw [relaxFold_count, hc5]
    have hpF : ((getNeighbors u env.width env.height).foldl
        (relaxStep prune env u uDist) st5).pq.length ≤ pq'.length + 8 := by
      have h8 := getNeighbors_length_le u env.width env.height
      rw [hq5] at hlenF
      omega
    have hcap' : st.count ≤ env.maxIterations := by
      rw [h2cnt] at hcap
      omega
    unfold searchMeasure
    omega

/-- Walking an 8-connected chain from a visited pixel, in a state where every
finite pixel is visited and every neighbour of a visited pixel is finite,
keeps every pixel of the chain visited. -/
theorem visited_walk (env : SearchEnv) (st : SearchState)
    (hvall : ∀ v, (st.dist v).isSome = true → st.visited v = true)
    (hclo : ∀ u, st.visited u = true →
      ∀ nb ∈ getNeighbors u env.width env.height,
        (st.dist nb.index).isSome = true) :
    ∀ (l : List ℕ) (a : ℕ), l.head? = some a → st.visited a = true →
      chain8 env.width env.height l = true →
      ∀ b, l.getLast? = some b → st.visited b = true := by
  have hstep : ∀ a b, st.visited a = true →
      Adjacent8 env.width env.height a b → st.visited b = true := by
    intro a b hav hadj
    obtain ⟨nb, hnb, hnbi⟩ := getNeighbors_complete env.width env.height a b hadj
    exact hvall b (hnbi ▸ hclo a hav nb hnb)
  intro l
  induction l with
  | nil =>
    intro a ha
    simp at ha
  | cons x rest ih =>
    intro a ha hav hch b hb
    simp only [List.head?_cons, Option.some.injEq] at ha
    subst ha
    cases rest with
    | nil =>
      simp only [List.getLast?_singleton, Option.some.injEq] at hb
      subst hb
      exact hav
    | cons y rest2 =>
      simp only [chain8, Bool.and_eq_true, decide_eq_true_eq] at hch
      obtain ⟨hadj, hch2⟩ := hch
      rw [List.getLast?_cons_cons] at hb
      exact ih y rfl (hstep x y hav hadj) hch2 b hb

/-- While the invariant holds and the end pixel lies on the grid, the search
loop can never exit through queue exhaustion: the queue cannot empty before
the end pixel is visited. -/
theorem searchStep_not_queueEmpty (prune : Bool) (env : SearchEnv)
    (st ste : SearchState) (hinv : SInv env st)
    (hendN : env.endIndex < env.width * env.height) :
    searchStep prune env st ≠ .exit (.queueEmpty ste) := by
  obtain ⟨hrange, hstart, hpq, hvd, hfin, hpw, hclo, hend⟩ := hinv
  intro h
  unfold searchStep at h
  by_cases hemp : st.pq.isEmpty
  · have hpqnil : st.pq = [] := List.isEmpty_iff.mp hemp
    have hvall : ∀ v, (st.dist v).isSome = true → st.visited v = true := by
      intro v hv
      rcases hfin v hv with h' | ⟨e, he, -⟩
      · exact h'
      · rw [hpqnil] at he
        exact absurd he (List.not_mem_nil e)
    have hvs : st.visited env.startIndex = true :=
      hvall _ (by rw [hstart]; rfl)
    have hstartN : env.startIndex < env.width * env.height :=
      (hrange _ 0 hstart).1
    obtain ⟨l, -, hlhd, hllast, hlchain⟩ :=
      grid_connected env.width env.height env.startIndex env.endIndex
        hstartN hendN
    have hve : st.visited env.endIndex = true :=
      visited_walk env st hvall hclo l env.startIndex hlhd hvs hlchain
        env.endIndex hllast
    rw [hend] at hve
    exact Bool.noConfusion hve
  · rw [if_neg hemp] at h
    rcases hdq : dequeue st.pq with _ | ⟨u, pq'⟩
    · rw [dequeue_none_iff] at hdq
      exact hemp (by rw [hdq]; rfl)
    rw [hdq] at h
    dsimp only at h
    by_cases hvisu : st.visited u = true
    · rw [if_pos hvisu] at h
      exact absurd h (by simp)
    rw [if_neg hvisu] at h
    by_cases hcap : env.maxIterations < (markVisited { st with pq := pq' } u).count
    · rw [if_pos hcap] at h
      exact absurd h (by simp)
    rw [if_neg hcap] at h
    by_cases huend : u = env.endIndex
    · rw [if_pos huend] at h
      exact absurd h (by simp)
    rw [if_neg huend] at h
    rcases hd5 : (postProcess env u (progressCheck env u
        (stepLog (markVisited { st with pq := pq' } u)))).dist u with _ | uDist <;>
      rw [hd5] at h <;> exact absurd h (by simp)

/-- A search iteration that returns a path returns an 8-connected pixel chain
from the start pixel to the end pixel. -/
theorem searchStep_found (prune : Bool) (env : SearchEnv) (st : SearchState)
    (p : List ℕ) (stf : SearchState) (hinv : SInv env st)
    (h : searchStep prune env st = .exit (.found p stf)) :
    p ≠ [] ∧ p.head? = some env.startIndex ∧ p.getLast? = some env.endIndex ∧
    chain8 env.width env.height p = true := by
  obtain ⟨hrange, hstart, hpq, hvd, hfin, hpw, hclo, hend⟩ := hinv
  unfold searchStep at h
  by_cases hemp : st.pq.isEmpty
  · rw [if_pos hemp] at h
    exact absurd h (by simp)
  rw [if_neg hemp] at h
  rcases hdq : dequeue st.pq with _ | ⟨u, pq'⟩
  · rw [hdq] at h
    exact absurd h (by simp)
  rw [hdq] at h
  dsimp only at h
  obtain ⟨⟨e0, he0, he0e⟩, hsub, hcover, hlen⟩ := dequeue_spec st.pq u pq' hdq
  have husome : (st.dist u).isSome = true := he0e ▸ hpq e0 he0
  by_cases hvisu : st.visited u = true
  · rw [if_pos hvisu] at h
    exact absurd h (by simp)
  rw [if_neg hvisu] at h
  set st2 := markVisited { st with pq := pq' } u with hst2
  by_cases hcap : env.maxIterations < st2.count
  · rw [if_pos hcap] at h
    exact absurd h (by simp)
  rw [if_neg hcap] at h
  by_cases huend : u = env.endIndex
  swap
  · rw [if_neg huend] at h
    rcases hd5 : (postProcess env u (progressCheck env u (stepLog st2))).dist u
        with _ | uDist <;>
      rw [hd5] at h <;> exact absurd h (by simp)
  rw [if_pos huend] at h
  set st3 := stepLog st2 with hst3
  set st4 := progressCheck env u st3 with hst4
  obtain ⟨c3pq, c3dist, c3pred, c3vis, c3cnt, -, -⟩ := stepLog_core st2
  obtain ⟨c4pq, c4dist, c4pred, c4vis, c4cnt, -, -⟩ := progressCheck_core env u st3
  rw [← hst3] at c3pq c3dist c3pred c3vis c3cnt
  rw [← hst4] at c4pq c4dist c4pred c4vis c4cnt
  have hd4 : st4.dist = st.dist := by
    rw [c4dist, c3dist]; rfl
  have hp4 : st4.pred = st.pred := by
    rw [c4pred, c3pred]; rfl
  have hv4 : st4.visited = fun n => if n = u then true else st.visited n := by
    rw [c4vis, c3vis]; rfl
  have hrange4 : ∀ v d, st4.dist v = some d →
      v < env.width * env.height ∧ 0 ≤ d := by
    rw [hd4]; exact hrange
  have hpw4 : ∀ v d, st4.dist v = some d → v ≠ env.startIndex →
      PredWitness env st4 v d := by
    intro v d hv hne
    rw [hd4] at hv
    obtain ⟨q, dq, hq, hlt, hqv, hqadj, hp255, hpdec⟩ := hpw v d hv hne
    unfold PredWitness
    rw [hd4, hp4, hv4]
    refine ⟨q, dq, hq, hlt, ?_, hqadj, hp255, hpdec⟩
    dsimp only
    by_cases hqu : q = u
    · rw [if_pos hqu]
    · rw [if_neg hqu]; exact hqv
  rcases Option.isSome_iff_exists.mp husome with ⟨uDist, hud⟩
  have hd4u : st4.dist env.endIndex = some uDist := by
    rw [hd4, ← huend]; exact hud
  have hfuel : distBelow env st4 uDist < env.width * env.height + 1 :=
    Nat.lt_succ_of_le (distBelow_le env st4 uDist)
  obtain ⟨l, hrec, hch, hhd⟩ :=
    reconGo_reaches env st4 hrange4 hpw4 (env.width * env.height + 1)
      env.endIndex uDist [] hd4u hfuel rfl
  have hrp : reconstructPath env st4 = (l ++ [env.endIndex], false) := by
    unfold reconstructPath
    exact hrec
  rw [StepResult.exit.injEq, SearchExit.found.injEq] at h
  obtain ⟨hp, -⟩ := h
  rw [← hp, hrp]
  refine ⟨by simp, hhd, ?_, hch⟩
  exact List.getLast?_concat l

/-- Unconditionally, one relaxation adds at most one queue entry. -/
theorem relaxStep_pq_le (prune : Bool) (env : SearchEnv) (u : ℕ) (uDist : ℚ)
    (st : SearchState) (nb : Neighbor) :
    (relaxStep prune env u uDist st nb).pq.length ≤ st.pq.length + 1 := by
  unfold relaxStep
  dsimp only
  split
  · omega
  split
  · omega
  split
  · dsimp only
    rw [enqueue_length]
  · omega

/-- Unconditionally, the relaxation fold adds at most one queue entry per
neighbour. -/
theorem relaxFold_pq_le (prune : Bool) (env : SearchEnv) (u : ℕ) (uDist : ℚ)
    (l : List Neighbor) (st : SearchState) :
    (l.foldl (relaxStep prune env u uDist) st).pq.length ≤
      st.pq.length + l.length := by
  induction l generalizing st with
  | nil => simp
  | cons nb tl ih =>
    rw [List.foldl_cons]
    calc (tl.foldl (relaxStep prune env u uDist)
          (relaxStep prune env u uDist st nb)).pq.length
        ≤ (relaxStep prune env u uDist st nb).pq.length + tl.length := ih _
      _ ≤ st.pq.length + 1 + tl.length := by
          have := relaxStep_pq_le prune env u uDist st nb
          omega
      _ = st.pq.length + (nb :: tl).length := by simp [List.length_cons]; omega

/-- Every continuing search iteration strictly decreases the termination
measure — with no invariant assumption, so the loop terminates on any input. -/
theorem searchStep_measure (prune : Bool) (env : SearchEnv)
    (st st' : SearchState) (h : searchStep prune env st = .next st') :
    searchMeasure env st' < searchMeasure env st := by
  unfold searchStep at h
  by_cases hemp : st.pq.isEmpty
  · rw [if_pos hemp] at h
    exact absurd h (by simp)
  rw [if_neg hemp] at h
  rcases hdq : dequeue st.pq with _ | ⟨u, pq'⟩
  · rw [hdq] at h
    exact absurd h (by simp)
  rw [hdq] at h
  dsimp only at h
  obtain ⟨-, -, -, hlen⟩ := dequeue_spec st.pq u pq' hdq
  by_cases hvisu : st.visited u = true
  · rw [if_pos hvisu] at h
    rw [StepResult.next.injEq] at h
    subst h
    unfold searchMeasure
    dsimp only
    omega
  rw [if_neg hvisu] at h
  set st2 := markVisited { st with pq := pq' } u with hst2
  by_cases hcap : env.maxIterations < st2.count
  · rw [if_pos hcap] at h
    exact absurd h (by simp)
  rw [if_neg hcap] at h
  by_cases huend : u = env.endIndex
  · rw [if_pos huend] at h
    exact absurd h (by simp)
  rw [if_neg huend] at h
  set st3 := stepLog st2 with hst3
  set st4 := progressCheck env u st3 with hst4
  set st5 := postProcess env u st4 with hst5
  obtain ⟨c3pq, -, -, -, c3cnt, -, -⟩ := stepLog_core st2
  obtain ⟨c4pq, -, -, -, c4cnt, -, -⟩ := progressCheck_core env u st3
  obtain ⟨c5pq, -, -, -, c5cnt⟩ := postProcess_core env u st4
  rw [← hst3] at c3pq c3cnt
  rw [← hst4] at c4pq c4cnt
  rw [← hst5] at c5pq c5cnt
  have h2cnt : st2.count = st.count := rfl
  have h2pq : st2.pq = pq' := rfl
  have hq5 : st5.pq = pq' := by rw [c5pq, c4pq, c3pq, h2pq]
  have hc5 : st5.count = st.count + 1 := by rw [c5cnt, c4cnt, c3cnt, h2cnt]
  have hq5l : st5.pq.length = pq'.length := by rw [hq5]
  have hcap' : st.count ≤ env.maxIterations := by
    rw [h2cnt] at hcap
    omega
  rcases hd5 : st5.dist u with _ | uDist <;> rw [hd5] at h <;>
    dsimp only at h <;> rw [StepResult.next.injEq] at h <;> subst h
  · unfold searchMeasure
    omega
  · have hpF := relaxFold_pq_le prune env u uDist
      (getNeighbors u env.width env.height) st5
    have h8 := getNeighbors_length_le u env.width env.height
    have hcF : ((getNeighbors u env.width env.height).foldl
        (relaxStep prune env u uDist) st5).count = st.count + 1 := by
      rw [relaxFold_count, hc5]
    unfold searchMeasure
    omega

/-- With fuel exceeding the measure, the search loop always reaches an exit. -/
theorem searchLoop_total (prune : Bool) (env : SearchEnv) :
    ∀ (fuel : ℕ) (st : SearchState), searchMeasure env st < fuel →
      ∃ e, searchLoop prune env fuel st = some e := by
  intro fuel
  induction fuel with
  | zero =>
    intro st hm
    exact absurd hm (Nat.not_lt_zero _)
  | succ fuel ih =>
    intro st hm
    show ∃ e, (match searchStep prune env st with
      | .exit e => some e
      | .next st' => searchLoop prune env fuel st') = some e
    rcases hs : searchStep prune env st with st' | e
    · dsimp only
      have := searchStep_measure prune env st st' hs
      exact ih st' (by omega)
    · exact ⟨e, rfl⟩

/-- With the invariant and an on-grid end pixel, the loop reaches an exit
that is never queue exhaustion, and any returned path is an 8-connected
chain from the start pixel to the end pixel. -/
theorem searchLoop_spec (prune : Bool) (env : SearchEnv)
    (hendN : env.endIndex < env.width * env.height) :
    ∀ (fuel : ℕ) (st : SearchState), SInv env st →
      searchMeasure env st < fuel →
      ∃ e, searchLoop prune env fuel st = some e ∧
        (∀ ste, e ≠ .queueEmpty ste) ∧
        (∀ p stf, e = .found p stf →
          p ≠ [] ∧ p.head? = some env.startIndex ∧
          p.getLast? = some env.endIndex ∧
          chain8 env.width env.height p = true) := by
  intro fuel
  induction fuel with
  | zero =>
    intro st _ hm
    exact absurd hm (Nat.not_lt_zero _)
  | succ fuel ih =>
    intro st hinv hm
    rcases hs : searchStep prune env st with st' | e
    · obtain ⟨hinv', hdec⟩ := searchStep_next prune env st st' hinv hs
      obtain ⟨e, he, hne, hfd⟩ := ih st' hinv' (by omega)
      refine ⟨e, ?_, hne, hfd⟩
      show (match searchStep prune env st with
        | .exit e => some e
        | .next st' => searchLoop prune env fuel st') = some e
      rw [hs]
      exact he
    · refine ⟨e, ?_, ?_, ?_⟩
      · show (match searchStep prune env st with
          | .exit e => some e
          | .next st' => searchLoop prune env fuel st') = some e
        rw [hs]
      · intro ste hq
        rw [hq] at hs
        exact searchStep_not_queueEmpty prune env st ste hinv hendN hs
      · intro p stf hf
        rw [hf] at hs
        exact searchStep_found prune env st p stf hinv hs

/-- The initial search state satisfies the loop invariant whenever the start
pixel lies on the grid. -/
theorem initialState_SInv (env : SearchEnv)
    (hstartN : env.startIndex < env.width * env.height) :
    SInv env (initialSearchState env) := by
  refine ⟨?_, ?_, ?_, ?_, ?_, ?_, ?_, rfl⟩
  · intro v d hv
    dsimp only [initialSearchState] at hv
    by_cases hvs : v = env.startIndex
    · rw [if_pos hvs] at hv
      obtain rfl := Option.some.inj hv
      exact ⟨hvs ▸ hstartN, le_refl 0⟩
    · rw [if_neg hvs] at hv
      exact absurd hv (by simp)
  · dsimp only [initialSearchState]
    rw [if_pos rfl]
  · intro e he
    dsimp only [initialSearchState] at he ⊢
    rcases (enqueue_mem [] env.startIndex 0 e).mp he with h0 | rfl
    · exact absurd h0 (List.not_mem_nil e)
    · dsimp only
      rw [if_pos rfl]
      rfl
  · intro v hv
    exact absurd hv (by simp [initialSearchState])
  · intro v hv
    dsimp only [initialSearchState] at hv ⊢
    by_cases hvs : v = env.startIndex
    · subst hvs
      exact Or.inr ⟨⟨env.startIndex, 0⟩,
        (enqueue_mem [] env.startIndex 0 _).mpr (Or.inr rfl), rfl⟩
    · rw [if_neg hvs] at hv
      exact absurd hv (by simp)
  · intro v d hv hne
    dsimp only [initialSearchState] at hv
    by_cases hvs : v = env.startIndex
    · exact absurd hvs hne
    · rw [if_neg hvs] at hv
      exact absurd hv (by simp)
  · intro u hu
    exact absurd hu (by simp [initialSearchState])

/-- The canonical fuel strictly dominates the initial measure. -/
theorem initial_measure_lt (env : SearchEnv) :
    searchMeasure env (initialSearchState env) < searchFuel env := by
  unfold searchMeasure searchFuel initialSearchState
  dsimp only
  rw [enqueue_length]
  simp only [List.length_nil]
  omega

/-- A settlement's rounded pixel index lies on the grid. -/
theorem cityIndex_lt (width height : ℕ) (c : City)
    (hc : CityInRange width height c) :
    (jsRound c.y).toNat * width + (jsRound c.x).toNat < width * height := by
  obtain ⟨hx0, hxw, hy0, hyh⟩ := hc
  have hxw' : (jsRound c.x).toNat < width := by omega
  have hyh' : (jsRound c.y).toNat < height := by omega
  calc (jsRound c.y).toNat * width + (jsRound c.x).toNat
      < ((jsRound c.y).toNat + 1) * width := by
        rw [Nat.add_mul, Nat.one_mul]
        omega
    _ ≤ height * width := Nat.mul_le_mul_right width (by omega)
    _ = width * height := Nat.mul_comm height width

/-- C1: whenever the search returns a path for two on-grid settlements, the
path is non-empty, starts exactly at the start settlement's rounded pixel
index, ends exactly at the end settlement's rounded pixel index, and every
two consecutive indices in it are 8-adjacent on the grid. -/
theorem C1_path_endpoints (prune : Bool) (width height : ℕ)
    (elevation : ℕ → ℚ) (roadUsage : ℕ → ℕ) (influence : ℕ → Option ℚ)
    (cs ce : City) (hcs : CityInRange width height cs)
    (hce : CityInRange width height ce) (p : List ℕ)
    (h : findPathResult prune width height elevation roadUsage influence cs ce =
      some (some p)) :
    p ≠ [] ∧
    p.head? = some ((jsRound cs.y).toNat * width + (jsRound cs.x).toNat) ∧
    p.getLast? = some ((jsRound ce.y).toNat * width + (jsRound ce.x).toNat) ∧
    chain8 width height p = true := by
  have hstartN : (searchEnvOf width height elevation roadUsage influence cs ce).startIndex <
      width * height := cityIndex_lt width height cs hcs
  have hendN : (searchEnvOf width height elevation roadUsage influence cs ce).endIndex <
      width * height := cityIndex_lt width height ce hce
  obtain ⟨e, he, hne, hfd⟩ :=
    searchLoop_spec prune (searchEnvOf width height elevation roadUsage influence cs ce)
      hendN (searchFuel (searchEnvOf width height elevation roadUsage influence cs ce))
      (initialSearchState (searchEnvOf width height elevation roadUsage influence cs ce))
      (initialState_SInv _ hstartN)
      (initial_measure_lt _)
  have hrun : findPathRun prune width height elevation roadUsage influence cs ce =
      some e := he
  unfold findPathResult at h
  rw [hrun] at h
  rcases e with ⟨p', stf⟩ | ⟨st⟩ | ⟨st⟩
  · dsimp only at h
    obtain rfl : p' = p := by
      simpa using h
    exact hfd p' stf rfl
  · exact absurd h (by simp)
  · exact absurd h (by simp)

/-- C3: `findPath` always terminates — on every grid and every pair of
settlements the fuelled search loop reaches one of the three exits (found,
iteration-cap break, or empty queue, the latter returning NoPathFound), and
never runs out of fuel. -/
theorem C3_termination (prune : Bool) (width height : ℕ)
    (elevation : ℕ → ℚ) (roadUsage : ℕ → ℕ) (influence : ℕ → Option ℚ)
    (cs ce : City) :
    ∃ r, findPathResult prune width height elevation roadUsage influence cs ce =
      some r := by
  obtain ⟨e, he⟩ :=
    searchLoop_total prune (searchEnvOf width height elevation roadUsage influence cs ce)
      (searchFuel (searchEnvOf width height elevation roadUsage influence cs ce))
      (initialSearchState (searchEnvOf width height elevation roadUsage influence cs ce))
      (initial_measure_lt _)
  have hrun : findPathRun prune width height elevation roadUsage influence cs ce =
      some e := he
  unfold findPathResult
  rw [hrun]
  rcases e with ⟨p, stf⟩ | ⟨st⟩ | ⟨st⟩
  · exact ⟨some p, rfl⟩
  · exact ⟨none, rfl⟩
  · exact ⟨none, rfl⟩

/-- C2, amended: for on-grid settlements the queue can never empty before the
target is reached (every pixel is traversable, so the grid is fully
8-connected and the only failure exit is the iteration cap), and the loop
never exhausts its fuel. -/
theorem C2_amended_no_queue_exhaustion (prune : Bool) (width height : ℕ)
    (elevation : ℕ → ℚ) (roadUsage : ℕ → ℕ) (influence : ℕ → Option ℚ)
    (cs ce : City) (hcs : CityInRange width height cs)
    (hce : CityInRange width height ce) :
    findPathExitKind prune width height elevation roadUsage influence cs ce ≠
      .queueEmpty ∧
    findPathExitKind prune width height elevation roadUsage influence cs ce ≠
      .fuelOut := by
  have hstartN : (searchEnvOf width height elevation roadUsage influence cs ce).startIndex <
      width * height := cityIndex_lt width height cs hcs
  have hendN : (searchEnvOf width height elevation roadUsage influence cs ce).endIndex <
      width * height := cityIndex_lt width height ce hce
  obtain ⟨e, he, hne, -⟩ :=
    searchLoop_spec prune (searchEnvOf width height elevation roadUsage influence cs ce)
      hendN (searchFuel (searchEnvOf width height elevation roadUsage influence cs ce))
      (initialSearchState (searchEnvOf width height elevation roadUsage influence cs ce))
      (initialState_SInv _ hstartN)
      (initial_measure_lt _)
  have hrun : findPathRun prune width height elevation roadUsage influence cs ce =
      some e := he
  unfold findPathExitKind
  rw [hrun]
  rcases e with ⟨p, stf⟩ | ⟨st⟩ | ⟨st⟩
  · exact ⟨by simp, by simp⟩
  · exact ⟨by simp, by simp⟩
  · exact absurd rfl (hne st)

unseal Rat.add Rat.mul Rat.inv Rat.sub in
/-- Witness for C1 on the 1×1 grid: the search from the single settlement to
itself returns the path `[0]`, which satisfies all three endpoint and
adjacency properties. -/
theorem C1_path_endpoints_witness :
    (CityInRange 1 1 cityS ∧
      findPathResult true 1 1 (fun _ => 0) (fun _ => 0) (fun _ => none)
        cityS cityS = some (some [0])) ∧
    ([0] : List ℕ) ≠ [] ∧
    ([0] : List ℕ).head? = some ((jsRound cityS.y).toNat * 1 + (jsRound cityS.x).toNat) ∧
    ([0] : List ℕ).getLast? = some ((jsRound cityS.y).toNat * 1 + (jsRound cityS.x).toNat) ∧
    chain8 1 1 [0] = true :=
  ⟨⟨by decide, by decide⟩,
    C1_path_endpoints true 1 1 (fun _ => 0) (fun _ => 0) (fun _ => none)
      cityS cityS (by decide) (by decide) [0] (by decide)⟩

unseal Rat.add Rat.mul Rat.inv Rat.sub in
/-- Witness for the amended C2 on the 1×1 grid: the exit kind is `found`,
in particular neither queue exhaustion nor fuel exhaustion. -/
theorem C2_amended_witness :
    (CityInRange 1 1 cityS ∧ CityInRange 1 1 cityS) ∧
    (findPathExitKind true 1 1 (fun _ => 0) (fun _ => 0) (fun _ => none)
        cityS cityS ≠ .queueEmpty ∧
     findPathExitKind true 1 1 (fun _ => 0) (fun _ => 0) (fun _ => none)
        cityS cityS ≠ .fuelOut) :=
  ⟨⟨by decide, by decide⟩,
    C2_amended_no_queue_exhaustion true 1 1 (fun _ => 0) (fun _ => 0)
      (fun _ => none) cityS cityS (by decide) (by decide)⟩

/-! ## The pruning branch is a semantic no-op -/

/-- All recorded distances are non-negative. -/
def NInv (st : SearchState) : Prop := ∀ v d, st.dist v = some d → 0 ≤ d

/-- Relaxation keeps distances non-negative. -/
theorem relaxStep_nonneg (prune : Bool) (env : SearchEnv) (u : ℕ) (uDist : ℚ)
    (st : SearchState) (nb : Neighbor) (hu0 : 0 ≤ uDist) (hnn : NInv st) :
    NInv (relaxStep prune env u uDist st nb) := by
  unfold relaxStep
  dsimp only
  split
  · exact hnn
  split
  · exact hnn
  split
  · intro v d hv
    dsimp only at hv
    by_cases hvn : v = nb.index
    · rw [if_pos hvn] at hv
      obtain rfl := Option.some.inj hv
      have := moveCost_pos (env.elevation u) (env.elevation nb.index)
        (env.roadUsage nb.index) (env.influence nb.index) nb.isDiagonal
      unfold moveCostOf
      linarith
    · rw [if_neg hvn] at hv
      exact hnn v d hv
  · exact hnn

/-- With non-negative distances, the pruning branch never changes the result
of a relaxation: a pruned edge (`newDist > distances[v] * 1.05` with
`distances[v] ≥ 0`) would in any case have failed the relaxation test
`newDist < distances[v]`. -/
theorem relaxStep_prune_eq (env : SearchEnv) (u : ℕ) (uDist : ℚ)
    (st : SearchState) (nb : Neighbor) (hnn : NInv st) :
    relaxStep true env u uDist st nb = relaxStep false env u uDist st nb := by
  unfold relaxStep
  by_cases hv : st.visited nb.index = true
  · rw [if_pos hv, if_pos hv]
  rw [if_neg hv, if_neg hv]
  dsimp only
  by_cases hp : (match st.dist nb.index with
      | some dv => decide (80 ≤ moveCostOf env u nb) &&
          decide (dv * (105 / 100) < uDist + moveCostOf env u nb)
      | none => false) = true
  · rcases hd : st.dist nb.index with _ | dv
    · rw [hd] at hp
      simp at hp
    · rw [hd] at hp
      simp only [Bool.and_eq_true, decide_eq_true_eq] at hp
      obtain ⟨hmc80, hgt⟩ := hp
      have hdv0 : 0 ≤ dv := hnn nb.index dv hd
      have hnorel : ¬ (uDist + moveCostOf env u nb < dv) := by
        intro hc
        nlinarith
      dsimp only
      rw [if_pos (by simp [hmc80, hgt]), if_neg (by simp)]
      rw [if_neg (by simp [hnorel])]
  · have htm : ¬((true && (match st.dist nb.index with
        | some dv => decide (80 ≤ moveCostOf env u nb) &&
            decide (dv * (105 / 100) < uDist + moveCostOf env u nb)
        | none => false)) = true) := fun hc => hp (by simpa using hc)
    have hfm : ¬((false && (match st.dist nb.index with
        | some dv => decide (80 ≤ moveCostOf env u nb) &&
            decide (dv * (105 / 100) < uDist + moveCostOf env u nb)
        | none => false)) = true) := by simp
    rw [if_neg htm, if_neg hfm]

/-- The whole relaxation fold keeps distances non-negative. -/
theorem relaxFold_nonneg (prune : Bool) (env : SearchEnv) (u : ℕ) (uDist : ℚ)
    (l : List Neighbor) (st : SearchState) (hu0 : 0 ≤ uDist) (hnn : NInv st) :
    NInv (l.foldl (relaxStep prune env u uDist) st) := by
  induction l generalizing st with
  | nil => exact hnn
  | cons nb tl ih =>
    rw [List.foldl_cons]
    exact ih _ (relaxStep_nonneg prune env u uDist st nb hu0 hnn)

/-- The relaxation fold gives the same state with and without pruning. -/
theorem relaxFold_prune_eq (env : SearchEnv) (u : ℕ) (uDist : ℚ)
    (l : List Neighbor) (st : SearchState) (hu0 : 0 ≤ uDist) (hnn : NInv st) :
    l.foldl (relaxStep true env u uDist) st =
      l.foldl (relaxStep false env u uDist) st := by
  induction l generalizing st with
  | nil => rfl
  | cons nb tl ih =>
    rw [List.foldl_cons, List.foldl_cons, relaxStep_prune_eq env u uDist st nb hnn]
    exact ih _ (relaxStep_nonneg false env u uDist st nb hu0 hnn)

/-- One search iteration is identical with and without pruning, and keeps
distances non-negative. -/
theorem searchStep_prune (env : SearchEnv) (st : SearchState) (hnn : NInv st) :
    searchStep true env st = searchStep false env st ∧
    ∀ st', searchStep true env st = .next st' → NInv st' := by
  unfold searchStep
  by_cases hemp : st.pq.isEmpty
  · simp only [if_pos hemp]
    exact ⟨by trivial, fun st' h => absurd h (by simp)⟩
  simp only [if_neg hemp]
  rcases hdq : dequeue st.pq with _ | ⟨u, pq'⟩
  · simp only [hdq]
    exact ⟨by trivial, fun st' h => absurd h (by simp)⟩
  simp only [hdq]
  by_cases hvisu : st.visited u = true
  · simp only [if_pos hvisu]
    refine ⟨by trivial, fun st' h => ?_⟩
    rw [StepResult.next.injEq] at h
    subst h
    exact fun v d hv => hnn v d hv
  simp only [if_neg hvisu]
  set st2 := markVisited { st with pq := pq' } u with hst2
  by_cases hcap : env.maxIterations < st2.count
  · simp only [if_pos hcap]
    exact ⟨by trivial, fun st' h => absurd h (by simp)⟩
  simp only [if_neg hcap]
  by_cases huend : u = env.endIndex
  · simp only [if_pos huend]
    exact ⟨by trivial, fun st' h => absurd h (by simp)⟩
  simp only [if_neg huend]
  set st3 := stepLog st2 with hst3
  set st4 := progressCheck env u st3 with hst4
  set st5 := postProcess env u st4 with hst5
  obtain ⟨-, c3dist, -, -, -, -, -⟩ := stepLog_core st2
  obtain ⟨-, c4dist, -, -, -, -, -⟩ := progressCheck_core env u st3
  obtain ⟨-, c5dist, -, -, -⟩ := postProcess_core env u st4
  rw [← hst3] at c3dist
  rw [← hst4] at c4dist
  rw [← hst5] at c5dist
  have hd5 : st5.dist = st.dist := by
    rw [c5dist, c4dist, c3dist]; rfl
  have hnn5 : NInv st5 := by
    intro v d hv
    rw [hd5] at hv
    exact hnn v d hv
  rcases hd5u : st5.dist u with _ | uDist
  · simp only [hd5u]
    refine ⟨by trivial, fun st' h => ?_⟩
    rw [StepResult.next.injEq] at h
    subst h
    exact hnn5
  · simp only [hd5u]
    have hu0 : 0 ≤ uDist := hnn5 u uDist hd5u
    constructor
    · rw [relaxFold_prune_eq env u uDist _ st5 hu0 hnn5]
    · intro st' h
      rw [StepResult.next.injEq] at h
      subst h
      exact relaxFold_nonneg true env u uDist _ st5 hu0 hnn5

/-- The full search loop is identical with and without pruning. -/
theorem searchLoop_prune_eq (env : SearchEnv) :
    ∀ (fuel : ℕ) (st : SearchState), NInv st →
      searchLoop true env fuel st = searchLoop false env fuel st := by
  intro fuel
  induction fuel with
  | zero => intro st _; rfl
  | succ fuel ih =>
    intro st hnn
    obtain ⟨heq, hpres⟩ := searchStep_prune env st hnn
    show (match searchStep true env st with
      | .exit e => some e
      | .next st' => searchLoop true env fuel st') =
      (match searchStep false env st with
      | .exit e => some e
      | .next st' => searchLoop false env fuel st')
    rw [← heq]
    rcases hs : searchStep true env st with st' | e
    · dsimp only
      exact ih st' (hpres st' hs)
    · rfl

/-- `findPath` behaves identically with the pruning branch enabled and with
it removed: the branch is dead code, because a prunable edge always also
fails the plain Dijkstra relaxation test. -/
theorem findPath_prune_eq (width height : ℕ) (elevation : ℕ → ℚ)
    (roadUsage : ℕ → ℕ) (influence : ℕ → Option ℚ) (cs ce : City) :
    findPathResult true width height elevation roadUsage influence cs ce =
      findPathResult false width height elevation roadUsage influence cs ce := by
  have hnn0 : NInv (initialSearchState
      (searchEnvOf width height elevation roadUsage influence cs ce)) := by
    intro v d hv
    dsimp only [initialSearchState] at hv
    by_cases hvs : v = (searchEnvOf width height elevation roadUsage influence cs ce).startIndex
    · rw [if_pos hvs] at hv
      obtain rfl := Option.some.inj hv
      exact le_refl 0
    · rw [if_neg hvs] at hv
      exact absurd hv (by simp)
  unfold findPathResult findPathRun
  rw [searchLoop_prune_eq _ _ _ hnn0]

/-- C4 is false: there is no input on which the search with the high-cost
pruning branch differs from the identical search with the branch removed. -/
theorem C4_counterexample :
    ¬ ∃ (width height : ℕ) (elevation : ℕ → ℚ) (roadUsage : ℕ → ℕ)
      (influence : ℕ → Option ℚ) (cs ce : City),
      findPathResult true width height elevation roadUsage influence cs ce ≠
        findPathResult false width height elevation roadUsage influence cs ce := by
  rintro ⟨w, h, el, ru, infl, cs, ce, hne⟩
  exact hne (findPath_prune_eq w h el ru infl cs ce)

/-- C4, amended: the high-cost pruning branch never changes the search's
behaviour — on every terrain input the search with the pruning branch returns
exactly the same result as the identical search with the branch removed,
because a pruned relaxation (newDist > distances[v]·1.05 with
distances[v] ≥ 0) would also have failed the relaxation test
newDist < distances[v]. -/
theorem C4_amended_prune_noop (width height : ℕ) (elevation : ℕ → ℚ)
    (roadUsage : ℕ → ℕ) (influence : ℕ → Option ℚ) (cs ce : City) :
    findPathResult true width height elevation roadUsage influence cs ce =
      findPathResult false width height elevation roadUsage influence cs ce :=
  findPath_prune_eq width height elevation roadUsage influence cs ce

/-! ## The driver: road reinforcement, nearest city, segment analysis
(src/worker.js:626-768) -/

/-- `updateCostGridWithRoad` (src/worker.js:626-638): bump the usage count of
every pixel on the path, capped at 65535. -/
def updateCostGridWithRoad (usage : ℕ → ℕ) (path : List ℕ) : ℕ → ℕ :=
  path.foldl (fun g px => fun n =>
    if n = px then (if g px < 65535 then g px + 1 else g px) else g n) usage

/-- `findNearestCity` (src/worker.js:319-337): the first city attaining the
minimum squared distance to the pixel (strict improvement, so earlier cities
win ties); `none` only when there are no cities. -/
def findNearestCity (cities : List City) (width : ℕ) (pixelIndex : ℕ) :
    Option City :=
  (cities.foldl (fun acc city =>
    let dSq : ℚ := ((xOf pixelIndex width : ℚ) - city.x) ^ 2 +
      ((yOf pixelIndex width : ℚ) - city.y) ^ 2
    match acc with
    | none => some (city, dSq)
    | some (best, minSq) =>
        if dSq < minSq then some (city, dSq) else some (best, minSq)) none).map
    Prod.fst

/-- Processing one completed segment (src/worker.js:731-761): a
`leaderboardUpdate` message is posted exactly when the segment is longer than
20 pixels, its two endpoint pixels have distinct nearest cities, and those
cities are more than 10 units apart (compared on squares). -/
def processSegment (cities : List City) (width : ℕ) (seg : List ℕ) :
    List String :=
  if 20 < seg.length then
    match findNearestCity cities width (seg.headD 0),
        findNearestCity cities width (seg.getLastD 0) with
    | some c1, some c2 =>
        if c1.name ≠ c2.name then
          if 100 < (c2.x - c1.x) ^ 2 + (c2.y - c1.y) ^ 2 then
            ["leaderboardUpdate"]
          else []
        else []
    | _, _ => []
  else []

/-- The scan of `analyzePathForSegments` (src/worker.js:719-768): pixels with
usage ≥ 2 extend the current segment; a pixel below 2 or the end of the path
closes and processes it. -/
def analyzeGo (usage : ℕ → ℕ) (cities : List City) (width : ℕ) :
    List ℕ → List ℕ → List String
  | [], _ => []
  | px :: rest, seg =>
    let seg' := if 2 ≤ usage px then seg ++ [px] else seg
    if usage px < 2 ∨ rest = [] then
      processSegment cities width seg' ++ analyzeGo usage cities width rest []
    else analyzeGo usage cities width rest seg'

/-- `analyzePathForSegments` (src/worker.js:719-768), as the list of message
tags it posts.  Note that it reads the road-usage grid to select segments. -/
def analyzePathForSegments (usage : ℕ → ℕ) (cities : List City) (width : ℕ)
    (path : List ℕ) : List String :=
  analyzeGo usage cities width path []

/-- One iteration of `simulationLoop` (src/worker.js:698-716) for an already
chosen start/end pair (the random weighted choice is not modelled): the
banner log and `findingPath` message, the full `findPath` run, and on success
the `pathFound` message, the road reinforcement, and the segment analysis of
the updated grid.  Returns the new usage grid and all message tags posted, in
order. -/
def simStep (prune : Bool) (width height : ℕ) (elevation : ℕ → ℚ)
    (usage : ℕ → ℕ) (influence : ℕ → Option ℚ) (cities : List City)
    (cs ce : City) : (ℕ → ℕ) × List String :=
  let pre : List String := ["log", "findingPath"]
  let tr := findPathTrace prune width height elevation usage influence cs ce
  match findPathResult prune width height elevation usage influence cs ce with
  | some (some p) =>
      let usage' := updateCostGridWithRoad usage p
      (usage', pre ++ tr ++ ["pathFound"] ++
        analyzePathForSegments usage' cities width p)
  | _ => (usage, pre ++ tr)

/-- The road update touches only pixels on the path. -/
theorem updateCostGridWithRoad_frame :
    ∀ (path : List ℕ) (usage : ℕ → ℕ) (n : ℕ), n ∉ path →
      updateCostGridWithRoad usage path n = usage n
  | [], _, _, _ => rfl
  | px :: rest, usage, n, h => by
    unfold updateCostGridWithRoad
    rw [List.foldl_cons]
    have hrec := updateCostGridWithRoad_frame rest
      (fun m => if m = px then (if usage px < 65535 then usage px + 1 else usage px)
        else usage m) n (fun hc => h (List.mem_cons_of_mem px hc))
    unfold updateCostGridWithRoad at hrec
    rw [hrec]
    dsimp only
    rw [if_neg (fun hc : n = px => h (by rw [hc]; exact List.mem_cons_self px rest))]

/-- City A at pixel (0,0) of the 31-wide strip. -/
def cityA31 : City := ⟨"A", 1, 0, 0⟩

/-- City B at pixel (30,0) of the 31-wide strip. -/
def cityB31 : City := ⟨"B", 1, 30, 0⟩

unseal Rat.add Rat.mul Rat.inv Rat.sub in
/-- C9 is false as stated: `analyzePathForSegments` — a component other than
the shortest-path search's edge-cost computation — reads the UsageField: on
the straight 31-pixel path between cities A and B its observable output (the
messages posted) changes when only the usage grid changes, from no message at
usage 0 everywhere to a `leaderboardUpdate` at usage 5 everywhere. -/
theorem C9_counterexample :
    analyzePathForSegments (fun _ => 5) [cityA31, cityB31] 31 (List.range 31) =
      ["leaderboardUpdate"] ∧
    analyzePathForSegments (fun _ => 0) [cityA31, cityB31] 31 (List.range 31) =
      [] ∧
    analyzePathForSegments (fun _ => 5) [cityA31, cityB31] 31 (List.range 31) ≠
      analyzePathForSegments (fun _ => 0) [cityA31, cityB31] 31 (List.range 31) := by
  refine ⟨by decide, by decide, ?_⟩
  intro hc
  have h1 : analyzePathForSegments (fun _ => 5) [cityA31, cityB31] 31
      (List.range 31) = ["leaderboardUpdate"] := by decide
  have h2 : analyzePathForSegments (fun _ => 0) [cityA31, cityB31] 31
      (List.range 31) = [] := by decide
  rw [h1, h2] at hc
  exact List.noConfusion hc

unseal Rat.add Rat.mul Rat.inv Rat.sub in
/-- C9, amended: `updateCostGridWithRoad` is the usage field's only writer —
one driver iteration changes the usage grid exactly by
`updateCostGridWithRoad` on the found path (and not at all when the search
fails), and the update touches no pixel off the path — but the cost function
is not its only reader: `analyzePathForSegments` also reads the usage grid
(to select reinforced segments), and its output depends on it. -/
theorem C9_amended_usage_frame :
    (∀ (prune : Bool) (width height : ℕ) (elevation : ℕ → ℚ)
      (usage : ℕ → ℕ) (influence : ℕ → Option ℚ) (cities : List City)
      (cs ce : City),
      (simStep prune width height elevation usage influence cities cs ce).1 =
        match findPathResult prune width height elevation usage influence cs ce with
        | some (some p) => updateCostGridWithRoad usage p
        | _ => usage) ∧
    (∀ (path : List ℕ) (usage : ℕ → ℕ) (n : ℕ), n ∉ path →
      updateCostGridWithRoad usage path n = usage n) ∧
    (∃ (u1 u2 : ℕ → ℕ) (cities : List City) (width : ℕ) (path : List ℕ),
      analyzePathForSegments u1 cities width path ≠
        analyzePathForSegments u2 cities width path) := by
  refine ⟨?_, updateCostGridWithRoad_frame, ?_⟩
  · intro prune width height elevation usage influence cities cs ce
    unfold simStep
    rcases findPathResult prune width height elevation usage influence cs ce
        with _ | r
    · rfl
    · rcases r with _ | p <;> rfl
  · refine ⟨fun _ => 5, fun _ => 0, [cityA31, cityB31], 31, List.range 31, ?_⟩
    intro hc
    have h1 : analyzePathForSegments (fun _ => 5) [cityA31, cityB31] 31
        (List.range 31) = ["leaderboardUpdate"] := by decide
    have h2 : analyzePathForSegments (fun _ => 0) [cityA31, cityB31] 31
        (List.range 31) = [] := by decide
    rw [h1, h2] at hc
    exact List.noConfusion hc

/-! ## The search never posts a `noPathFound` message -/

/-- The two message tags the search loop itself can post. -/
def TagOK (t : String) : Prop := t = "log" ∨ t = "pathfindingUpdate"

/-- Every tag posted so far is one of the search's two tags. -/
def TraceOK (st : SearchState) : Prop := ∀ t ∈ st.trace, TagOK t

/-- Appending further in-vocabulary tags keeps a trace in vocabulary. -/
theorem traceOK_extend {tr l : List String} (h : ∀ t ∈ tr, TagOK t)
    (hl : ∀ t ∈ l, TagOK t) : ∀ t ∈ tr ++ l, TagOK t :=
  fun t ht => (List.mem_append.mp ht).elim (h t) (hl t)

/-- Relaxation posts nothing. -/
theorem relaxStep_trace (prune : Bool) (env : SearchEnv) (u : ℕ) (uDist : ℚ)
    (st : SearchState) (nb : Neighbor) :
    (relaxStep prune env u uDist st nb).trace = st.trace := by
  unfold relaxStep
  dsimp only
  (repeat' split) <;> rfl

/-- Neither does the relaxation fold. -/
theorem relaxFold_trace (prune : Bool) (env : SearchEnv) (u : ℕ) (uDist : ℚ)
    (l : List Neighbor) (st : SearchState) :
    (l.foldl (relaxStep prune env u uDist) st).trace = st.trace := by
  induction l generalizing st with
  | nil => rfl
  | cons nb tl ih =>
    rw [List.foldl_cons, ih, relaxStep_trace]

/-- `addLog` stays in vocabulary. -/
theorem traceOK_addLog (st : SearchState) (h : TraceOK st) :
    TraceOK (addLog st) := by
  intro t ht
  dsimp only [addLog] at ht
  exact traceOK_extend h (by intro t ht; simp at ht; exact Or.inl ht) t ht

/-- `stepLog` stays in vocabulary. -/
theorem traceOK_stepLog (st : SearchState) (h : TraceOK st) :
    TraceOK (stepLog st) := by
  unfold stepLog
  split
  · exact traceOK_addLog st h
  · exact h

/-- `progressCheck` stays in vocabulary. -/
theorem traceOK_progressCheck (env : SearchEnv) (u : ℕ) (st : SearchState)
    (h : TraceOK st) : TraceOK (progressCheck env u st) := by
  unfold progressCheck
  split
  · dsimp only
    split
    · intro t ht
      dsimp only at ht
      exact traceOK_extend h (by intro t ht; simp at ht; exact Or.inl ht) t ht
    · exact h
  · exact h

/-- `postProcess` stays in vocabulary. -/
theorem traceOK_postProcess (env : SearchEnv) (u : ℕ) (st : SearchState)
    (h : TraceOK st) : TraceOK (postProcess env u st) := by
  intro t ht
  unfold postProcess at ht
  dsimp only at ht
  repeat' split at ht
  all_goals
    ((try dsimp only at ht);
     (try simp only [List.append_assoc, List.mem_append, List.mem_cons,
        List.mem_singleton, List.mem_map] at ht);
     repeat' (first
       | (obtain ⟨a, -, ht⟩ := ht)
       | (rcases ht with ht | ht)))
  all_goals
    (first
      | exact h t ht
      | exact absurd ht (List.not_mem_nil t)
      | exact Or.inl ht
      | exact Or.inr ht
      | exact Or.inl ht.symm
      | exact Or.inr ht.symm
      | (obtain ⟨a, -, rfl⟩ := ht
         exact Or.inl rfl)
      | (simp_all [TagOK, TraceOK]
         done)
      | (simp_all [TagOK, TraceOK]
         rcases ‹t = "log" ∨ (∃ x, x ∈ getNeighbors u env.width env.height) ∧
             "log" = t› with rfl | ⟨-, rfl⟩ <;>
           exact Or.inl rfl))

/-- `foundWrap` stays in vocabulary. -/
theorem traceOK_foundWrap (env : SearchEnv) (st : SearchState)
    (h : TraceOK st) : TraceOK (foundWrap env st) := by
  intro t ht
  unfold foundWrap addLog at ht
  dsimp only at ht
  repeat' split at ht
  all_goals
    ((try dsimp only at ht);
     (try simp only [List.append_assoc, List.mem_append, List.mem_cons,
        List.mem_singleton] at ht);
     repeat' (rcases ht with ht | ht))
  all_goals
    (first
      | exact h t ht
      | exact absurd ht (List.not_mem_nil t)
      | exact Or.inl ht
      | exact Or.inr ht
      | (simp_all [TagOK, TraceOK]
         done))

/-- One search iteration keeps every posted tag in vocabulary, whatever the
outcome. -/
theorem searchStep_traceOK (prune : Bool) (env : SearchEnv) (st : SearchState)
    (hok : TraceOK st) :
    (∀ st', searchStep prune env st = .next st' → TraceOK st') ∧
    (∀ p stf, searchStep prune env st = .exit (.found p stf) → TraceOK stf) ∧
    (∀ stc, searchStep prune env st = .exit (.capBreak stc) → TraceOK stc) ∧
    (∀ stq, searchStep prune env st = .exit (.queueEmpty stq) → TraceOK stq) := by
  unfold searchStep
  by_cases hemp : st.pq.isEmpty
  · rw [if_pos hemp]
    refine ⟨fun st' h => absurd h (by simp), fun p stf h => absurd h (by simp),
      fun stc h => absurd h (by simp), fun stq h => ?_⟩
    simp only [StepResult.exit.injEq, SearchExit.queueEmpty.injEq] at h
    exact h ▸ hok
  rw [if_neg hemp]
  rcases hdq : dequeue st.pq with _ | ⟨u, pq'⟩
  · refine ⟨fun st' h => absurd h (by simp), fun p stf h => absurd h (by simp),
      fun stc h => absurd h (by simp), fun stq h => ?_⟩
    simp only [StepResult.exit.injEq, SearchExit.queueEmpty.injEq] at h
    exact h ▸ hok
  dsimp only
  by_cases hvisu : st.visited u = true
  · rw [if_pos hvisu]
    refine ⟨fun st' h => ?_, fun p stf h => absurd h (by simp),
      fun stc h => absurd h (by simp), fun stq h => absurd h (by simp)⟩
    rw [StepResult.next.injEq] at h
    subst h
    exact hok
  rw [if_neg hvisu]
  set st2 := markVisited { st with pq := pq' } u with hst2
  have hok2 : TraceOK st2 := hok
  by_cases hcap : env.maxIterations < st2.count
  · rw [if_pos hcap]
    refine ⟨fun st' h => absurd h (by simp), fun p stf h => absurd h (by simp),
      fun stc h => ?_, fun stq h => absurd h (by simp)⟩
    simp only [StepResult.exit.injEq, SearchExit.capBreak.injEq] at h
    exact h ▸ traceOK_addLog st2 hok2
  rw [if_neg hcap]
  set st3 := stepLog st2 with hst3
  set st4 := progressCheck env u st3 with hst4
  have hok4 : TraceOK st4 :=
    traceOK_progressCheck env u st3 (traceOK_stepLog st2 hok2)
  by_cases huend : u = env.endIndex
  · rw [if_pos huend]
    refine ⟨fun st' h => absurd h (by simp), fun p stf h => ?_,
      fun stc h => absurd h (by simp), fun stq h => absurd h (by simp)⟩
    simp only [StepResult.exit.injEq, SearchExit.found.injEq] at h
    exact h.2 ▸ traceOK_foundWrap env st4 hok4
  rw [if_neg huend]
  set st5 := postProcess env u st4 with hst5
  have hok5 : TraceOK st5 := traceOK_postProcess env u st4 hok4
  refine ⟨fun st' h => ?_, fun p stf h => ?_, fun stc h => ?_, fun stq h => ?_⟩
  · rcases hd5 : st5.dist u with _ | uDist <;> rw [hd5] at h <;>
      dsimp only at h <;> rw [StepResult.next.injEq] at h <;> subst h
    · exact hok5
    · intro t ht
      rw [relaxFold_trace] at ht
      exact hok5 t ht
  · rcases hd5 : st5.dist u with _ | uDist <;> rw [hd5] at h <;>
      exact absurd h (by simp)
  · rcases hd5 : st5.dist u with _ | uDist <;> rw [hd5] at h <;>
      exact absurd h (by simp)
  · rcases hd5 : st5.dist u with _ | uDist <;> rw [hd5] at h <;>
      exact absurd h (by simp)

/-- The state carried by an exit. -/
def SearchExit.state : SearchExit → SearchState
  | .found _ s => s
  | .capBreak s => s
  | .queueEmpty s => s

/-- The loop keeps every posted tag in vocabulary. -/
theorem searchLoop_traceOK (prune : Bool) (env : SearchEnv) :
    ∀ (fuel : ℕ) (st : SearchState) (e : SearchExit), TraceOK st →
      searchLoop prune env fuel st = some e → TraceOK e.state := by
  intro fuel
  induction fuel with
  | zero =>
    intro st e _ h
    exact absurd h (by simp [searchLoop])
  | succ fuel ih =>
    intro st e hok h
    have h' : (match searchStep prune env st with
      | .exit e => some e
      | .next st' => searchLoop prune env fuel st') = some e := h
    obtain ⟨hnext, hfound, hcap, hq⟩ := searchStep_traceOK prune env st hok
    rcases hs : searchStep prune env st with st' | e'
    · rw [hs] at h'
      dsimp only at h'
      exact ih st' e (hnext st' hs) h'
    · rw [hs] at h'
      obtain rfl : e' = e := Option.some.inj h'
      rcases e' with ⟨p, stf⟩ | ⟨stc⟩ | ⟨stq⟩
      · exact hfound p stf hs
      · exact hcap stc hs
      · exact hq stq hs

/-- Every tag `findPath` posts is `log` or `pathfindingUpdate`; in
particular there is no `noPathFound` tag. -/
theorem findPathTrace_ok (prune : Bool) (width height : ℕ)
    (elevation : ℕ → ℚ) (roadUsage : ℕ → ℕ) (influence : ℕ → Option ℚ)
    (cs ce : City) :
    ∀ t ∈ findPathTrace prune width height elevation roadUsage influence cs ce,
      TagOK t := by
  have hok0 : TraceOK (initialSearchState
      (searchEnvOf width height elevation roadUsage influence cs ce)) := by
    intro t ht
    simp only [initialSearchState, List.mem_cons] at ht
    rcases ht with rfl | rfl | rfl | hf
    · exact Or.inl rfl
    · exact Or.inl rfl
    · exact Or.inl rfl
    · exact absurd hf (List.not_mem_nil t)
  unfold findPathTrace
  rcases hrun : findPathRun prune width height elevation roadUsage influence cs ce
      with _ | e
  · intro t ht
    exact absurd ht (List.not_mem_nil t)
  have he : TraceOK e.state :=
    searchLoop_traceOK prune _ _ _ e hok0 hrun
  rcases e with ⟨p, stf⟩ | ⟨stc⟩ | ⟨stq⟩
  · exact he
  · exact traceOK_extend he (by intro t ht; simp at ht; exact Or.inl ht)
  · exact traceOK_extend he (by intro t ht; simp at ht; exact Or.inl ht)

/-- Segment processing posts only `leaderboardUpdate` tags. -/
theorem processSegment_mem (cities : List City) (width : ℕ) (seg : List ℕ) :
    ∀ t ∈ processSegment cities width seg, t = "leaderboardUpdate" := by
  unfold processSegment
  intro t ht
  split at ht
  · rcases hc1 : findNearestCity cities width (seg.headD 0) with _ | c1 <;>
      rcases hc2 : findNearestCity cities width (seg.getLastD 0) with _ | c2 <;>
      rw [hc1, hc2] at ht <;> dsimp only at ht
    · exact absurd ht (List.not_mem_nil t)
    · exact absurd ht (List.not_mem_nil t)
    · exact absurd ht (List.not_mem_nil t)
    · split at ht
      · split at ht
        · simpa using ht
        · exact absurd ht (List.not_mem_nil t)
      · exact absurd ht (List.not_mem_nil t)
  · exact absurd ht (List.not_mem_nil t)

/-- The segment analysis posts only `leaderboardUpdate` tags. -/
theorem analyzeGo_mem (usage : ℕ → ℕ) (cities : List City) (width : ℕ) :
    ∀ (l seg : List ℕ) (t : String), t ∈ analyzeGo usage cities width l seg →
      t = "leaderboardUpdate" := by
  intro l
  induction l with
  | nil =>
    intro seg t ht
    exact absurd ht (List.not_mem_nil t)
  | cons px rest ih =>
    intro seg t ht
    unfold analyzeGo at ht
    dsimp only at ht
    split at ht
    · rcases List.mem_append.mp ht with h1 | h2
      · exact processSegment_mem cities width _ t h1
      · exact ih [] t h2
    · exact ih _ t ht

/-- A failed search's trace ends with the `❌ No path found` log line. -/
theorem findPathTrace_failure_last (prune : Bool) (width height : ℕ)
    (elevation : ℕ → ℚ) (roadUsage : ℕ → ℕ) (influence : ℕ → Option ℚ)
    (cs ce : City)
    (hfail : findPathResult prune width height elevation roadUsage influence cs ce =
      some none) :
    ∃ l, findPathTrace prune width height elevation roadUsage influence cs ce =
      l ++ ["log"] := by
  unfold findPathResult at hfail
  unfold findPathTrace
  rcases hrun : findPathRun prune width height elevation roadUsage influence cs ce
      with _ | e
  · rw [hrun] at hfail
    exact absurd hfail (by simp)
  rw [hrun] at hfail
  rcases e with ⟨p, stf⟩ | ⟨stc⟩ | ⟨stq⟩
  · exact absurd hfail (by simp)
  · exact ⟨stc.trace, rfl⟩
  · exact ⟨stq.trace, rfl⟩

/-- C8, amended: the engine has no `noPathFound` event at all — no message
with that tag is ever posted, by the search or by the driver iteration; when
a search ends without reaching the target the driver posts nothing further,
and the last message posted is the `❌ No path found` log line. -/
theorem C8_amended_no_noPathFound (prune : Bool) (width height : ℕ)
    (elevation : ℕ → ℚ) (usage : ℕ → ℕ) (influence : ℕ → Option ℚ)
    (cities : List City) (cs ce : City) :
    "noPathFound" ∉
      (simStep prune width height elevation usage influence cities cs ce).2 ∧
    (findPathResult prune width height elevation usage influence cs ce =
        some none →
      ((simStep prune width height elevation usage influence cities cs ce).2).getLast? =
        some "log") := by
  have htr : ∀ t ∈ findPathTrace prune width height elevation usage influence cs ce,
      t ≠ "noPathFound" := by
    intro t ht
    rcases findPathTrace_ok prune width height elevation usage influence cs ce t ht
        with rfl | rfl <;> decide
  constructor
  · intro hmem
    unfold simStep at hmem
    rcases hres : findPathResult prune width height elevation usage influence cs ce
        with _ | r
    · rw [hres] at hmem
      dsimp only at hmem
      rcases List.mem_append.mp hmem with h1 | h2
      · simp at h1
      · exact htr _ h2 rfl
    · rcases r with _ | p
      · rw [hres] at hmem
        dsimp only at hmem
        rcases List.mem_append.mp hmem with h1 | h2
        · simp at h1
        · exact htr _ h2 rfl
      · rw [hres] at hmem
        dsimp only at hmem
        rw [List.append_assoc, List.append_assoc] at hmem
        rcases List.mem_append.mp hmem with h1 | h2
        · simp at h1
        · rcases List.mem_append.mp h2 with h3 | h4
          · exact htr _ h3 rfl
          · rcases List.mem_append.mp h4 with h5 | h6
            · simp at h5
            · have := analyzeGo_mem (updateCostGridWithRoad usage p) cities width
                p [] _ h6
              exact absurd this (by decide)
  · intro hfail
    obtain ⟨l, hl⟩ := findPathTrace_failure_last prune width height elevation
      usage influence cs ce hfail
    unfold simStep
    rw [hfail]
    dsimp only
    rw [hl, ← List.append_assoc]
    exact List.getLast?_concat _

unseal Rat.add Rat.mul Rat.inv Rat.sub in
/-- Witness for the amended C8 on the failing C2 grid: the search gives up
(NoPathFound), and the driver iteration's message list ends with the failure
log line. -/
theorem C8_amended_witness :
    (findPathResult true 3 3 (elevationGridOf pixelsC2) (fun _ => 0) influC2
      cityS cityE = some none) ∧
    ((simStep true 3 3 (elevationGridOf pixelsC2) (fun _ => 0) influC2
      [cityS, cityE] cityS cityE).2).getLast? = some "log" :=
  ⟨by decide,
    (C8_amended_no_noPathFound true 3 3 (elevationGridOf pixelsC2) (fun _ => 0)
      influC2 [cityS, cityE] cityS cityE).2 (by decide)⟩

unseal Rat.add Rat.mul Rat.inv Rat.sub in
/-- C8 fails as stated: on the 3×3 grid `elevC2` the search ends without
reaching the target (it returns NoPathFound), yet the driver iteration posts
no `noPathFound`-tagged message — only the `log`-tagged failure line, which
is also the last message posted. -/
theorem C8_counterexample :
    (findPathResult true 3 3 (elevationGridOf pixelsC2) (fun _ => 0) influC2
      cityS cityE = some none) ∧
    "noPathFound" ∉
      (simStep true 3 3 (elevationGridOf pixelsC2) (fun _ => 0) influC2
        [cityS, cityE] cityS cityE).2 ∧
    ((simStep true 3 3 (elevationGridOf pixelsC2) (fun _ => 0) influC2
      [cityS, cityE] cityS cityE).2).getLast? = some "log" :=
  ⟨by decide, by decide, by decide⟩

/-! ## The binary-heap invariant of the priority queue (src/worker.js:202-270) -/

/-- The binary min-heap ordering: every entry's parent (at index
`(i - 1) / 2`) has a priority no larger than the entry's. -/
def HeapProp {α : Type} (heap : List (Entry α)) : Prop :=
  ∀ i e p, 0 < i → heap.get? i = some e → heap.get? ((i - 1) / 2) = some p →
    p.priority ≤ e.priority

/-- Reading a two-position swap. -/
theorem get?_swap {α : Type} (heap : List (Entry α)) (a b : ℕ)
    (x y : Entry α) (ha : a < heap.length) (hb : b < heap.length) (k : ℕ) :
    ((heap.set a x).set b y).get? k =
      if k = b then some y else if k = a then some x else heap.get? k := by
  by_cases hkb : k = b
  · subst hkb
    rw [if_pos rfl]
    exact List.get?_set_eq_of_lt y (by simpa using hb)
  · rw [if_neg hkb, List.get?_set_ne y _ (fun hc => hkb hc.symm)]
    by_cases hka : k = a
    · subst hka
      rw [if_pos rfl]
      exact List.get?_set_eq_of_lt x ha
    · rw [if_neg hka, List.get?_set_ne x _ (fun hc => hka hc.symm)]

/-- In a heap, the root priority is a lower bound for every entry. -/
theorem heap_root_min {α : Type} (heap : List (Entry α)) (hh : HeapProp heap)
    (r : Entry α) (hr : heap.get? 0 = some r) :
    ∀ i e, heap.get? i = some e → r.priority ≤ e.priority := by
  intro i
  induction i using Nat.strong_induction_on with
  | _ i ih =>
    intro e he
    rcases Nat.eq_zero_or_pos i with rfl | hpos
    · rw [hr] at he
      obtain rfl := Option.some.inj he
      exact le_refl _
    · have hiN : i < heap.length := (List.get?_eq_some.mp he).1
      have hpN : (i - 1) / 2 < heap.length := by
        have : (i - 1) / 2 < i := by omega
        omega
      rcases hp : heap.get? ((i - 1) / 2) with _ | p
      · rw [List.get?_eq_none] at hp
        omega
      · exact le_trans (ih ((i - 1) / 2) (by omega) p hp)
          (hh i e p hpos he hp)

/-- The `bubbleUp` invariant: the heap ordering holds everywhere except at
`n`, and `n`'s children (if any) dominate `n`'s grandparent. -/
def BubbleInv {α : Type} (heap : List (Entry α)) (n : ℕ) : Prop :=
  (∀ i e p, 0 < i → i ≠ n → heap.get? i = some e →
    heap.get? ((i - 1) / 2) = some p → p.priority ≤ e.priority) ∧
  (∀ j e gp, 0 < n → (j - 1) / 2 = n → heap.get? j = some e →
    heap.get? ((n - 1) / 2) = some gp → gp.priority ≤ e.priority)

/-- Running the bubble-up loop with enough fuel from an almost-heap restores
the heap ordering. -/
theorem bubbleUpGo_heapProp {α : Type} :
    ∀ (fuel : ℕ) (heap : List (Entry α)) (n : ℕ), BubbleInv heap n →
      n < fuel → HeapProp (bubbleUpGo fuel heap n)
  | 0, heap, n, hinv, hfuel => absurd hfuel (Nat.not_lt_zero n)
  | fuel + 1, heap, n, hinv, hfuel => by
    obtain ⟨h1, h2⟩ := hinv
    unfold bubbleUpGo
    by_cases hn : n = 0
    · rw [if_pos hn]
      intro i e p hpos he hp
      exact h1 i e p hpos (by omega) he hp
    rw [if_neg hn]
    dsimp only
    rcases hel : heap.get? n with _ | element
    · intro i e p hpos he hp
      by_cases hin : i = n
      · rw [hin, hel] at he
        exact Option.noConfusion he
      · exact h1 i e p hpos hin he hp
    rcases hpar : heap.get? ((n - 1) / 2) with _ | parent
    · have hnN : n < heap.length := (List.get?_eq_some.mp hel).1
      have : ¬ heap.length ≤ (n - 1) / 2 := by
        have : (n - 1) / 2 < n := by omega
        omega
      rw [List.get?_eq_none] at hpar
      exact absurd hpar this
    dsimp only
    by_cases hge : element.priority ≥ parent.priority
    · rw [if_pos hge]
      intro i e p hpos he hp
      by_cases hin : i = n
      · rw [hin, hel] at he
        rw [hin] at hp
        rw [hp] at hpar
        obtain rfl := Option.some.inj hpar
        obtain rfl := Option.some.inj he
        exact hge
      · exact h1 i e p hpos hin he hp
    · rw [if_neg hge]
      have hlt : element.priority < parent.priority := lt_of_not_le hge
      have hnN : n < heap.length := (List.get?_eq_some.mp hel).1
      have hpN : (n - 1) / 2 < heap.length := (List.get?_eq_some.mp hpar).1
      have hpn : (n - 1) / 2 < n := by omega
      have hget := get?_swap heap ((n - 1) / 2) n element parent hpN hnN
      apply bubbleUpGo_heapProp fuel _ ((n - 1) / 2) _ (by omega)
      constructor
      · intro i e p hpos hipn hie hip
        rw [hget] at hie
        rw [hget] at hip
        by_cases hin : i = n
        · subst hin
          rw [if_pos rfl] at hie
          obtain rfl := Option.some.inj hie
          have hppn : (i - 1) / 2 ≠ i := by omega
          rw [if_neg hppn, if_pos rfl] at hip
          obtain rfl := Option.some.inj hip
          exact le_of_lt hlt
        · rw [if_neg hin, if_neg hipn] at hie
          by_cases hpi : (i - 1) / 2 = n
          · rw [if_pos hpi] at hip
            obtain rfl := Option.some.inj hip
            exact h2 i e parent (by omega) hpi hie hpar
          · by_cases hpp : (i - 1) / 2 = (n - 1) / 2
            · rw [if_neg hpi, if_pos hpp] at hip
              obtain rfl := Option.some.inj hip
              have hpe : parent.priority ≤ e.priority :=
                h1 i e parent hpos hin hie (by rw [hpp]; exact hpar)
              exact le_trans (le_of_lt hlt) hpe
            · rw [if_neg hpi, if_neg hpp] at hip
              exact h1 i e p hpos hin hie hip
      · intro j e gp hppos hjp hje hjgp
        have hgpn : ((n - 1) / 2 - 1) / 2 ≠ n := by omega
        have hgppn : ((n - 1) / 2 - 1) / 2 ≠ (n - 1) / 2 := by omega
        rw [hget, if_neg hgpn, if_neg hgppn] at hjgp
        rw [hget] at hje
        by_cases hjn : j = n
        · rw [hjn, if_pos rfl] at hje
          have hpe : parent = e := Option.some.inj hje
          rw [← hpe]
          exact h1 ((n - 1) / 2) parent gp hppos (by omega) hpar hjgp
        · have hjpn : j ≠ (n - 1) / 2 := by omega
          rw [if_neg hjn, if_neg hjpn] at hje
          have h1j : parent.priority ≤ e.priority :=
            h1 j e parent (by omega) hjn hje (by rw [hjp]; exact hpar)
          have h2j : gp.priority ≤ parent.priority :=
            h1 ((n - 1) / 2) parent gp hppos (by omega) hpar hjgp
          exact le_trans h2j h1j

/-- `enqueue` preserves the heap ordering. -/
theorem enqueue_heapProp {α : Type} (heap : List (Entry α)) (x : α) (pr : ℚ)
    (hh : HeapProp heap) : HeapProp (enqueue heap x pr) := by
  unfold enqueue bubbleUp
  dsimp only
  have hlen : (heap ++ [(⟨x, pr⟩ : Entry α)]).length = heap.length + 1 := by
    simp
  rw [hlen]
  have hsub : heap.length + 1 - 1 = heap.length := by omega
  rw [hsub]
  apply bubbleUpGo_heapProp (heap.length + 1) _ heap.length _ (by omega)
  constructor
  · intro i e p hpos hin hie hip
    have hiN : i < heap.length + 1 := by
      have := (List.get?_eq_some.mp hie).1
      simpa using this
    have hiN' : i < heap.length := by omega
    have hpN' : (i - 1) / 2 < heap.length := by omega
    rw [List.get?_append hiN'] at hie
    rw [List.get?_append hpN'] at hip
    exact hh i e p hpos hie hip
  · intro j e gp hpos hjp hje hjgp
    have hjN : j < heap.length + 1 := by
      have := (List.get?_eq_some.mp hje).1
      simpa using this
    omega

/-- An entry of `dropLast` is an entry of the list, at the same position. -/
theorem dropLast_get? {α : Type} (l : List α) (j : ℕ) (v : α)
    (h : l.dropLast.get? j = some v) : l.get? j = some v := by
  have hj : j < l.dropLast.length := (List.get?_eq_some.mp h).1
  rw [List.length_dropLast] at hj
  rw [List.dropLast_eq_take] at h
  rwa [List.get?_take (by omega)] at h

/-- The `sinkDown` invariant: the heap ordering holds for every pair whose
parent is not `n`, and `n`'s grandparent bounds `n`'s children. -/
def SinkInv {α : Type} (heap : List (Entry α)) (n : ℕ) : Prop :=
  (∀ i e p, 0 < i → (i - 1) / 2 ≠ n → heap.get? i = some e →
    heap.get? ((i - 1) / 2) = some p → p.priority ≤ e.priority) ∧
  (∀ j e gp, 0 < n → (j - 1) / 2 = n → heap.get? j = some e →
    heap.get? ((n - 1) / 2) = some gp → gp.priority ≤ e.priority)

/-- What a selected swap index gives: the child at `s` exists, beats the
sinking element, is a child of `n`, and is no worse than the sibling. -/
theorem sinkSwap_spec {α : Type} (heap : List (Entry α)) (n : ℕ)
    (element : Entry α) (s : ℕ) (hs : sinkSwap heap n element = some s) :
    ∃ c, heap.get? s = some c ∧ c.priority < element.priority ∧
      (s - 1) / 2 = n ∧
      (∀ o oe, 0 < o → (o - 1) / 2 = n → o ≠ s → heap.get? o = some oe →
        c.priority ≤ oe.priority) := by
  unfold sinkSwap at hs
  rcases h2 : heap.get? ((n + 1) * 2) with _ | child2 <;> rw [h2] at hs
  · rcases h1 : heap.get? ((n + 1) * 2 - 1) with _ | child1 <;> rw [h1] at hs
    · exact Option.noConfusion hs
    · dsimp only at hs
      by_cases hc : child1.priority < element.priority
      · rw [if_pos hc] at hs
        obtain rfl := Option.some.inj hs
        refine ⟨child1, h1, hc, by omega, ?_⟩
        intro o oe hopos ho hos hoe
        have : o = (n + 1) * 2 := by omega
        rw [this, h2] at hoe
        exact Option.noConfusion hoe
      · rw [if_neg hc] at hs
        exact Option.noConfusion hs
  · rcases h1 : heap.get? ((n + 1) * 2 - 1) with _ | child1 <;> rw [h1] at hs
    · exact Option.noConfusion hs
    · dsimp only at hs
      by_cases hc : child1.priority < element.priority
      · rw [if_pos hc] at hs
        by_cases hd : child2.priority < child1.priority
        · rw [if_pos hd] at hs
          obtain rfl := Option.some.inj hs
          refine ⟨child2, h2, lt_trans hd hc, by omega, ?_⟩
          intro o oe hopos ho hos hoe
          have : o = (n + 1) * 2 - 1 := by omega
          rw [this, h1] at hoe
          obtain rfl := Option.some.inj hoe
          exact le_of_lt hd
        · rw [if_neg hd] at hs
          obtain rfl := Option.some.inj hs
          refine ⟨child1, h1, hc, by omega, ?_⟩
          intro o oe hopos ho hos hoe
          have : o = (n + 1) * 2 := by omega
          rw [this, h2] at hoe
          obtain rfl := Option.some.inj hoe
          exact le_of_not_lt hd
      · rw [if_neg hc] at hs
        by_cases hd : child2.priority < element.priority
        · rw [if_pos hd] at hs
          obtain rfl := Option.some.inj hs
          refine ⟨child2, h2, hd, by omega, ?_⟩
          intro o oe hopos ho hos hoe
          have : o = (n + 1) * 2 - 1 := by omega
          rw [this, h1] at hoe
          obtain rfl := Option.some.inj hoe
          exact le_trans (le_of_lt hd) (le_of_not_lt hc)
        · rw [if_neg hd] at hs
          exact Option.noConfusion hs

/-- When no swap index is selected, the element bounds both children. -/
theorem sinkSwap_none {α : Type} (heap : List (Entry α)) (n : ℕ)
    (element : Entry α) (hs : sinkSwap heap n element = none) :
    ∀ o oe, (o - 1) / 2 = n → 0 < o → heap.get? o = some oe →
      element.priority ≤ oe.priority := by
  intro o oe ho hopos hoe
  unfold sinkSwap at hs
  have hor : o = (n + 1) * 2 - 1 ∨ o = (n + 1) * 2 := by omega
  rcases h2 : heap.get? ((n + 1) * 2) with _ | child2 <;> rw [h2] at hs
  · rcases h1 : heap.get? ((n + 1) * 2 - 1) with _ | child1 <;> rw [h1] at hs
    · rcases hor with rfl | rfl
      · rw [h1] at hoe
        exact Option.noConfusion hoe
      · rw [h2] at hoe
        exact Option.noConfusion hoe
    · dsimp only at hs
      by_cases hc : child1.priority < element.priority
      · rw [if_pos hc] at hs
        exact Option.noConfusion hs
      · rcases hor with rfl | rfl
        · rw [h1] at hoe
          obtain rfl := Option.some.inj hoe
          exact le_of_not_lt hc
        · rw [h2] at hoe
          exact Option.noConfusion hoe
  · rcases h1 : heap.get? ((n + 1) * 2 - 1) with _ | child1 <;> rw [h1] at hs
    · have hl2 : (n + 1) * 2 < heap.length := (List.get?_eq_some.mp h2).1
      have hl1 : ¬ (n + 1) * 2 - 1 < heap.length := by
        intro hc
        rw [List.get?_eq_none] at h1
        omega
      omega
    · dsimp only at hs
      by_cases hc : child1.priority < element.priority
      · rw [if_pos hc] at hs
        by_cases hd : child2.priority < child1.priority <;>
          [rw [if_pos hd] at hs; rw [if_neg hd] at hs] <;>
          exact Option.noConfusion hs
      · rw [if_neg hc] at hs
        by_cases hd : child2.priority < element.priority
        · rw [if_pos hd] at hs
          exact Option.noConfusion hs
        · rcases hor with rfl | rfl
          · rw [h1] at hoe
            obtain rfl := Option.some.inj hoe
            exact le_of_not_lt hc
          · rw [h2] at hoe
            obtain rfl := Option.some.inj hoe
            exact le_of_not_lt hd

/-- Running the sink-down loop with enough fuel from an almost-heap restores
the heap ordering. -/
theorem sinkDownGo_heapProp {α : Type} :
    ∀ (fuel : ℕ) (heap : List (Entry α)) (n : ℕ), SinkInv heap n →
      heap.length ≤ fuel + n → HeapProp (sinkDownGo fuel heap n)
  | 0, heap, n, ⟨h1, h2⟩, hfuel => by
    intro i e p hpos hie hip
    by_cases hpi : (i - 1) / 2 = n
    · have : i < heap.length := (List.get?_eq_some.mp hie).1
      omega
    · exact h1 i e p hpos hpi hie hip
  | fuel + 1, heap, n, ⟨h1, h2⟩, hfuel => by
    unfold sinkDownGo
    rcases hel : heap.get? n with _ | element
    · dsimp only
      intro i e p hpos hie hip
      by_cases hpi : (i - 1) / 2 = n
      · rw [hpi, hel] at hip
        exact Option.noConfusion hip
      · exact h1 i e p hpos hpi hie hip
    dsimp only
    rcases hsw : sinkSwap heap n element with _ | s
    · dsimp only
      intro i e p hpos hie hip
      by_cases hpi : (i - 1) / 2 = n
      · rw [hpi, hel] at hip
        obtain rfl := Option.some.inj hip
        exact sinkSwap_none heap n element hsw i e hpi hpos hie
      · exact h1 i e p hpos hpi hie hip
    obtain ⟨c, hc, hce, hsn, hother⟩ := sinkSwap_spec heap n element s hsw
    obtain ⟨hns, hsN⟩ := sinkSwap_gt heap n element s hsw
    have hnN : n < heap.length := (List.get?_eq_some.mp hel).1
    dsimp only
    rw [hc]
    dsimp only
    have hget := get?_swap heap n s c element hnN hsN
    have hlen2 : ((heap.set n c).set s element).length = heap.length := by simp
    apply sinkDownGo_heapProp fuel _ s _ (by omega)
    constructor
    · intro i e p hpos hips hie hip
      rw [hget] at hie
      rw [hget] at hip
      by_cases his : i = s
      · subst his
        rw [if_pos rfl] at hie
        obtain rfl := Option.some.inj hie
        rw [hsn] at hip
        have hn_ne_i : n ≠ i := by omega
        rw [if_neg (fun hc' : n = i => hn_ne_i hc'), if_pos rfl] at hip
        obtain rfl := Option.some.inj hip
        exact le_of_lt hce
      · rw [if_neg his] at hie
        by_cases hin : i = n
        · subst hin
          rw [if_pos rfl] at hie
          obtain rfl := Option.some.inj hie
          have hpn : (i - 1) / 2 ≠ i := by omega
          have hps : (i - 1) / 2 ≠ s := by omega
          rw [if_neg hps, if_neg hpn] at hip
          exact h2 s c p (by omega) hsn hc hip
        · rw [if_neg hin] at hie
          by_cases hpi : (i - 1) / 2 = n
          · have hpssep : (i - 1) / 2 ≠ s := by omega
            rw [if_neg hpssep, if_pos hpi] at hip
            obtain rfl := Option.some.inj hip
            exact hother i e hpos hpi his hie
          · rw [if_neg hips, if_neg hpi] at hip
            exact h1 i e p hpos hpi hie hip
    · intro j e gp hspos hjp hje hjgp
      have hjs : j ≠ s := by omega
      have hjn : j ≠ n := by omega
      rw [hget, if_neg hjs, if_neg hjn] at hje
      have hsps : (s - 1) / 2 ≠ s := by omega
      rw [hget, if_neg hsps, hsn, if_pos rfl] at hjgp
      obtain rfl := Option.some.inj hjgp
      exact h1 j e c (by omega) (by omega) hje (by rw [hjp]; exact hc)

/-- `dequeue` preserves the heap ordering on the remaining heap. -/
theorem dequeue_heapProp {α : Type} (heap : List (Entry α)) (x : α)
    (h' : List (Entry α)) (hh : HeapProp heap)
    (hdq : dequeue heap = some (x, h')) : HeapProp h' := by
  cases heap with
  | nil => exact absurd hdq (by simp [dequeue])
  | cons mn rest =>
    cases rest with
    | nil =>
      unfold dequeue at hdq
      obtain ⟨-, rfl⟩ := Prod.mk.injEq .. ▸ Option.some.inj hdq
      intro i e p _ hie _
      exact absurd hie (by simp)
    | cons b t =>
      rcases hl : (b :: t).getLast? with _ | last
      · simp at hl
      · simp only [dequeue, hl, Option.some.injEq, Prod.mk.injEq] at hdq
        obtain ⟨-, rfl⟩ := hdq
        unfold sinkDown
        apply sinkDownGo_heapProp _ _ 0 _ (by omega)
        constructor
        · intro i e p hpos hpi hie hip
          have hpipos : 0 < (i - 1) / 2 := Nat.pos_of_ne_zero hpi
          have hie' : (mn :: b :: t).get? i = some e := by
            rcases i with _ | i'
            · omega
            · simp only [List.get?_cons_succ] at hie ⊢
              exact dropLast_get? (b :: t) i' e hie
          have hip' : (mn :: b :: t).get? ((i - 1) / 2) = some p := by
            rcases hq : (i - 1) / 2 with _ | q'
            · omega
            · rw [hq] at hip
              simp only [List.get?_cons_succ] at hip ⊢
              exact dropLast_get? (b :: t) q' p hip
          exact hh i e p hpos hie' hip'
        · intro j e gp hspos _ _ _
          exact absurd hspos (by omega)

/-- In a heap, `dequeue` returns the element of a minimal-priority entry. -/
theorem dequeue_min {α : Type} (heap : List (Entry α)) (hh : HeapProp heap)
    (x : α) (h' : List (Entry α)) (hdq : dequeue heap = some (x, h')) :
    ∃ e ∈ heap, e.element = x ∧ ∀ e' ∈ heap, e.priority ≤ e'.priority := by
  cases heap with
  | nil => exact absurd hdq (by simp [dequeue])
  | cons mn rest =>
    have hx : mn.element = x := by
      cases rest with
      | nil =>
        unfold dequeue at hdq
        obtain ⟨h1, -⟩ := Prod.mk.injEq .. ▸ Option.some.inj hdq
        exact h1
      | cons b t =>
        rcases hl : (b :: t).getLast? with _ | last
        · simp at hl
        · simp only [dequeue, hl, Option.some.injEq, Prod.mk.injEq] at hdq
          exact hdq.1
    refine ⟨mn, List.mem_cons_self mn rest, hx, ?_⟩
    intro e' he'
    obtain ⟨i, hi⟩ := List.get?_of_mem he'
    exact heap_root_min (mn :: rest) hh mn rfl i e' hi

/-- One priority-queue operation of the source (src/worker.js:202-270). -/
inductive HeapOp where
  | enq (x : ℕ) (p : ℚ)
  | deq
  deriving Repr

/-- Running a sequence of operations from a heap; `none` signals a `dequeue`
on an empty queue (where the source would crash). -/
def runOps : List HeapOp → List (Entry ℕ) → Option (List (Entry ℕ))
  | [], h => some h
  | .enq x p :: rest, h => runOps rest (enqueue h x p)
  | .deq :: rest, h =>
    match dequeue h with
    | none => none
    | some (_, h') => runOps rest h'

/-- Every heap reachable by a crash-free operation sequence is a heap. -/
theorem runOps_heapProp :
    ∀ (ops : List HeapOp) (h₀ h : List (Entry ℕ)), HeapProp h₀ →
      runOps ops h₀ = some h → HeapProp h
  | [], h₀, h, hh, hrun => by
    obtain rfl := Option.some.inj hrun
    exact hh
  | .enq x p :: rest, h₀, h, hh, hrun =>
    runOps_heapProp rest (enqueue h₀ x p) h (enqueue_heapProp h₀ x p hh) hrun
  | .deq :: rest, h₀, h, hh, hrun => by
    unfold runOps at hrun
    rcases hdq : dequeue h₀ with _ | ⟨y, h₁⟩
    · rw [hdq] at hrun
      exact Option.noConfusion hrun
    · rw [hdq] at hrun
      dsimp only at hrun
      exact runOps_heapProp rest h₁ h (dequeue_heapProp h₀ y h₁ hh hdq) hrun

/-- C10: after every crash-free sequence of enqueue/dequeue operations from
the empty queue, the priority queue's array satisfies the binary min-heap
ordering (each entry's parent at index `(i-1)/2` has priority ≤ the entry's),
and a dequeue from the resulting queue returns an element of minimal
priority among all queued entries. -/
theorem C10_heap_invariant (ops : List HeapOp) (h : List (Entry ℕ))
    (hrun : runOps ops [] = some h) :
    HeapProp h ∧
    ∀ x h', dequeue h = some (x, h') →
      ∃ e ∈ h, e.element = x ∧ ∀ e' ∈ h, e.priority ≤ e'.priority := by
  have hh : HeapProp h := by
    apply runOps_heapProp ops [] h _ hrun
    intro i e p _ hie _
    exact absurd hie (by simp)
  exact ⟨hh, fun x h' hdq => dequeue_min h hh x h' hdq⟩

/-- Witness for C10: the operation sequence enq(1,5), enq(2,1), enq(3,3),
deq, enq(4,2) runs without touching an empty queue and yields the heap
`[(4,2), (1,5), (3,3)]`, for which the claim's properties are then given by
the theorem. -/
theorem C10_heap_invariant_witness :
    runOps [HeapOp.enq 1 5, HeapOp.enq 2 1, HeapOp.enq 3 3, HeapOp.deq,
        HeapOp.enq 4 2] [] =
      some [⟨4, 2⟩, ⟨1, 5⟩, ⟨3, 3⟩] ∧
    (HeapProp [(⟨4, 2⟩ : Entry ℕ), ⟨1, 5⟩, ⟨3, 3⟩] ∧
      ∀ x h', dequeue [(⟨4, 2⟩ : Entry ℕ), ⟨1, 5⟩, ⟨3, 3⟩] = some (x, h') →
        ∃ e ∈ [(⟨4, 2⟩ : Entry ℕ), ⟨1, 5⟩, ⟨3, 3⟩], e.element = x ∧
          ∀ e' ∈ [(⟨4, 2⟩ : Entry ℕ), ⟨1, 5⟩, ⟨3, 3⟩],
            e.priority ≤ e'.priority) :=
  ⟨by decide,
    C10_heap_invariant [HeapOp.enq 1 5, HeapOp.enq 2 1, HeapOp.enq 3 3,
      HeapOp.deq, HeapOp.enq 4 2] [⟨4, 2⟩, ⟨1, 5⟩, ⟨3, 3⟩] (by decide)⟩

end Greyscale
